import Mathlib

/-!
Verification of the commit-message synthesis pipeline of git-ac.

Go strings are modelled as `List Char`, one `Char` per rune; Go's byte
indexing coincides with rune indexing on the ASCII inputs the tool handles,
and the ellipsis rune inserted by the subject splitter counts as one
character, matching the intent of the source comment that reserves one
character of the limit for it.  Network effects are abstracted into
oracles mapping requests to responses, and each provider call is logged so
that call-count claims can be stated.
-/

namespace GitAc

/-- Whitespace predicate of Go's `unicode.IsSpace`, used by
`strings.TrimSpace` and `strings.Fields`: ASCII whitespace plus the
Unicode White_Space code points. -/
def goIsSpace (c : Char) : Bool :=
  c = ' ' || c = '\t' || c = '\n' || c = '\x0b' || c = '\x0c' || c = '\r' ||
  c = '\x85' || c = '\xa0' || c = '\u1680' || ('\u2000' ≤ c && c ≤ '\u200a') ||
  c = '\u2028' || c = '\u2029' || c = '\u202f' || c = '\u205f' || c = '\u3000'

/-- Go `strings.TrimSpace`: drop whitespace from both ends. -/
def trimSpace (l : List Char) : List Char :=
  ((l.dropWhile goIsSpace).reverse.dropWhile goIsSpace).reverse

/-- Go `strings.Split(s, "\n")` (single-character separator). -/
def splitNL : List Char → List (List Char)
  | [] => [[]]
  | c :: cs =>
    if c = '\n' then [] :: splitNL cs
    else
      match splitNL cs with
      | [] => [[c]]
      | p :: ps => (c :: p) :: ps

/-- Go `strings.Join(parts, "\n")`. -/
def joinNL : List (List Char) → List Char
  | [] => []
  | [p] => p
  | p :: q :: ps => p ++ '\n' :: joinNL (q :: ps)

/-- Worker of `goFields`: scan the characters, accumulating the current
word (reversed) in `cur` and emitting it at each whitespace boundary. -/
def goFieldsAux (cur : List Char) : List Char → List (List Char)
  | [] => if cur = [] then [] else [cur.reverse]
  | c :: cs =>
    if goIsSpace c then
      if cur = [] then goFieldsAux [] cs else cur.reverse :: goFieldsAux [] cs
    else goFieldsAux (c :: cur) cs

/-- Go `strings.Fields`: the maximal runs of non-whitespace characters. -/
def goFields (l : List Char) : List (List Char) :=
  goFieldsAux [] l

/-- Check that `pat` is an initial segment of `l` (Go `strings.HasPrefix`). -/
def startsWith : List Char → List Char → Bool
  | [], _ => true
  | _ :: _, [] => false
  | p :: ps, c :: cs => p == c && startsWith ps cs

/-- Index of the first occurrence of `pat` in `l`, if any
(Go `strings.Index`, successful case). -/
def idxOfSub (pat : List Char) : List Char → Option Nat
  | [] => if pat = [] then some 0 else none
  | c :: cs =>
    if startsWith pat (c :: cs) then some 0
    else (idxOfSub pat cs).map (· + 1)

/-- Go `strings.Index`: first occurrence of `pat`, `-1` when absent. -/
def goIndex (pat l : List Char) : Int :=
  match idxOfSub pat l with
  | none => -1
  | some i => (i : Int)

/-- Go `strings.Contains` (implemented in Go as `Index(s, substr) >= 0`). -/
def containsSub (pat l : List Char) : Bool :=
  (idxOfSub pat l).isSome

/-- Fuel-driven worker for `splitOnSub`; with fuel above the length of the
input it splits at each successive first occurrence of `sep`, exactly as
Go `strings.Split` does for a non-empty separator. -/
def splitFuel (sep : List Char) : Nat → List Char → List (List Char)
  | 0, l => [l]
  | fuel + 1, l =>
    match idxOfSub sep l with
    | none => [l]
    | some i => l.take i :: splitFuel sep fuel (l.drop (i + sep.length))

/-- Go `strings.Split(s, sep)` for a non-empty separator. -/
def splitOnSub (sep l : List Char) : List (List Char) :=
  splitFuel sep (l.length + 1) l

/-- Go `strings.ReplaceAll(s, sep, "")`: remove every (non-overlapping,
leftmost-first) occurrence of `sep`. -/
def replaceAllEmpty (sep l : List Char) : List Char :=
  (splitOnSub sep l).flatten

/-- The opening thinking marker `"<think>"`. -/
def openThink : List Char := "<think>".data

/-- The closing thinking marker `"</think>"`. -/
def closeThink : List Char := "</think>".data

/-- Go loop of `CleanCommitMessage` removing `<think>...</think>` spans:
while both markers are present, cut from the first opening marker to the
end of the first closing marker, stopping if the bounds are inverted.
Fuel-driven; the string shrinks at every iteration. -/
def removeThinkFuel : Nat → List Char → List Char
  | 0, l => l
  | fuel + 1, l =>
    if containsSub openThink l && containsSub closeThink l then
      let s := goIndex openThink l
      let e := goIndex closeThink l + (closeThink.length : Int)
      if 0 ≤ s && s < e then removeThinkFuel fuel (l.take s.toNat ++ l.drop e.toNat)
      else l
    else l

/-- Index of the last `' '` in `l`, if any. -/
def lastIdxSpace : List Char → Option Nat
  | [] => none
  | c :: cs =>
    match lastIdxSpace cs with
    | some i => some (i + 1)
    | none => if c = ' ' then some 0 else none

/-- Go `strings.LastIndex(s, " ")`: last occurrence of a space, `-1` when
absent. -/
def goLastIndexSpace (l : List Char) : Int :=
  match lastIdxSpace l with
  | none => -1
  | some i => (i : Int)

/-- Configuration structure `config.CommitConfig` (`MaxLength int`). -/
structure CommitConfig where
  MaxLength : Int
deriving DecidableEq

/-- Marker-removal phase of `llm.CleanCommitMessage` (part_003 lines
281-306): trim, keep only what follows the last `"</think>"` when one is
present, run the span-removal loop, strip remaining marker strings, trim
again. -/
def markerPhase (message : List Char) : List Char :=
  let cleaned := trimSpace message
  let cleaned :=
    if containsSub closeThink cleaned then
      let parts := splitOnSub closeThink cleaned
      if 1 < parts.length then trimSpace parts.getLast! else cleaned
    else cleaned
  let cleaned := removeThinkFuel (cleaned.length + 1) cleaned
  let cleaned := replaceAllEmpty openThink cleaned
  let cleaned := replaceAllEmpty closeThink cleaned
  trimSpace cleaned

/-- The ellipsis rune `"…"` appended/prepended at a subject split,
counted as one character in the rune-level model; Go's byte-based `len`
counts its UTF-8 encoding as three bytes, which `ellBytes` and
`fixSubjectBytes` below model. -/
def ell : Char := '…'

/-- Subject-length phase of `llm.CleanCommitMessage` (part_003 lines
309-336): if the trimmed first line exceeds `MaxLength`, split it at the
last space before `MaxLength - 1` (or at the character boundary when no
such space exists), marking both halves with an ellipsis, and rejoin all
lines with newlines.  Lengths are measured in runes here, with the
inserted ellipsis as one character, as the source comment reserving one
character for it intends; `fixSubjectBytes` below measures in bytes as
Go's `len` and slicing actually do, which differs once an output
containing the three-byte ellipsis is fed back in. -/
def fixSubject (cleaned : List Char) (commitConfig : CommitConfig) : List Char :=
  match splitNL cleaned with
  | [] => cleaned
  | l0 :: rest =>
    let subject := trimSpace l0
    let lines :=
      if 0 < commitConfig.MaxLength ∧ commitConfig.MaxLength < (subject.length : Int) then
        let maxLen := (commitConfig.MaxLength - 1).toNat
        let spaceIdx := goLastIndexSpace (subject.take maxLen)
        if 0 < spaceIdx then
          let head0 := subject.take spaceIdx.toNat ++ [ell]
          let remainder := trimSpace (subject.drop spaceIdx.toNat)
          if remainder = [] then head0 :: rest
          else head0 :: (ell :: remainder) :: rest
        else
          let head0 := subject.take maxLen ++ [ell]
          let remainder := subject.drop maxLen
          if remainder = [] then head0 :: rest
          else head0 :: (ell :: remainder) :: rest
      else l0 :: rest
    joinNL lines

/-- Go `llm.CleanCommitMessage` (part_003 lines 280-339): marker removal
followed by subject-length handling. -/
def CleanCommitMessage (message : List Char) (commitConfig : CommitConfig) : List Char :=
  fixSubject (markerPhase message) commitConfig

/-- UTF-8 encoding of the ellipsis rune `"…"` (U+2026): the bytes
`E2 80 A6`, one list entry per byte. -/
def ellBytes : List Char := ['\xe2', '\x80', '\xa6']

/-- Byte-level subject-length phase of `llm.CleanCommitMessage`
(part_003 lines 309-336): Go strings are byte slices, `len(subject)` and
`subject[:k]` count bytes, and appending `"…"` appends the three bytes
`E2 80 A6`.  Strings are modelled as byte lists (one `Char` per byte);
on ASCII content every other operation coincides with the rune-level
model, so this variant is exact for ASCII inputs — including the
cleaner's own output, whose inserted ellipsis bytes are neither
whitespace nor marker bytes. -/
def fixSubjectBytes (cleaned : List Char) (commitConfig : CommitConfig) : List Char :=
  match splitNL cleaned with
  | [] => cleaned
  | l0 :: rest =>
    let subject := trimSpace l0
    let lines :=
      if 0 < commitConfig.MaxLength ∧ commitConfig.MaxLength < (subject.length : Int) then
        let maxLen := (commitConfig.MaxLength - 1).toNat
        let spaceIdx := goLastIndexSpace (subject.take maxLen)
        if 0 < spaceIdx then
          let head0 := subject.take spaceIdx.toNat ++ ellBytes
          let remainder := trimSpace (subject.drop spaceIdx.toNat)
          if remainder = [] then head0 :: rest
          else head0 :: (ellBytes ++ remainder) :: rest
        else
          let head0 := subject.take maxLen ++ ellBytes
          let remainder := subject.drop maxLen
          if remainder = [] then head0 :: rest
          else head0 :: (ellBytes ++ remainder) :: rest
      else l0 :: rest
    joinNL lines

/-- Byte-level `llm.CleanCommitMessage`: the marker phase (byte-exact,
its markers being ASCII) followed by the byte-level subject split. -/
def CleanCommitMessageBytes (message : List Char) (commitConfig : CommitConfig) :
    List Char :=
  fixSubjectBytes (markerPhase message) commitConfig

/-- Go `llm.IsDiffTooLarge` (part_003 lines 196-206): the diff is too
large when its whitespace-separated word count exceeds
`int((4096/2)/1.3)`; Go constant arithmetic is exact, so the bound is the
rational `2048/1.3` truncated toward zero. -/
def IsDiffTooLarge (diff : List Char) : Bool :=
  let wordCount := (goFields diff).length
  let maxWords : ℚ := ((4096 : ℚ) / 2) / (1.3 : ℚ)
  decide (⌊maxWords⌋ < (wordCount : Int))

/-- Decimal rendering of a Go `int`, as `fmt.Sprintf("%d", i)` produces. -/
def goIntString (i : Int) : List Char :=
  if i < 0 then '-' :: Nat.toDigits 10 (-i).toNat else Nat.toDigits 10 i.toNat

/-- Go `llm.BuildSummarizePrompt` (part_003 lines 209-216). -/
def BuildSummarizePrompt (diff : List Char) : List Char :=
  ("Summarize the changes in the following diff in several sentences. Pay attention to detail. The result should be a summary that is meaningful to a human knowledgeable about the codebase.\n\nDIFF:\n").data
  ++ diff ++ ("\n\nOUTPUT:").data

/-- Instruction text of `llm.BuildCommitPrompt` preceding the interpolated
`MaxLength` value. -/
def commitPromptRules1 : String :=
  "You are a Git commit message generator. Analyze the following changes and output ONLY a conventional commit message. Your commit message must summarize the most important and significant changes present. Be as specific as possible within the given constraints; saying \x27change maximum character limit to 72\x27 is better than \x27update commit message rules\x27. You may optionally include an extended description of the changes, ONLY if the changes are large or complex. Focus on the changes themselves; do not explain why you chose the type you did.\n\nREQUIRED FORMAT:\ntype(scope): summary line\n\noptional description\n\nVALID TYPES:\nfeat - new or improved feature work\nfix - fixing bugs or shortcomings\nrefactor - internal refactoring that improves quality, is not user-facing, and does not affect program behavior\ndocs - documentation\nstyle - formatting\ntest - testing\nchore - maintenance that is not feature-related or user-facing\n\nGOOD FIRST-LINE EXAMPLES:\nfeat(auth): add JWT token validation\nfix(parser): handle empty input strings\nrefactor(config): simplify YAML loading\ndocs: update installation guide\n\nREQUIREMENTS:\n- First line of the commit message MUST be concise and under "

/-- Instruction text of `llm.BuildCommitPrompt` following the interpolated
`MaxLength` value. -/
def commitPromptRules2 : String :=
  " characters\n- Present tense (add, not added)\n- No explanations, reasoning, or headings\n- Output ONLY the commit message\n- Focus on the most important changes present rather than inconsequential details. Be extremely concise.\n- Start immediately with \x27type(scope):\x27\n- SCOPE is not a file path/name, but one or two words summarizing the area of code that was changed. If multiple areas are changed, exclude the scope. Scope should be meaningful to a human knowledgeable about the codebase.\n\nGOOD SCOPE EXAMPLES: auth, parser, config, tests, api client\nBAD SCOPE EXAMPLES: internal, pkg, deps\n- If you include an extended description, it must be specific and concise. Do not include excess verbiage like \x27note:\x27 or \x27these changes relate to...\x27. Do not prefix it with \x27extended description\x27.\n- If you do not include an extended description, no additional output is required. DO NOT write \x27No extended description\x27. Your output should only include words that are meaningful to describe the diff itself.\n\n"

/-- README truncation of `llm.BuildCommitPrompt` (part_003 lines 259-264):
keep at most the first 20 lines, appending a truncation marker when lines
were dropped. -/
def truncatedReadme (readme : List Char) : List Char :=
  let readmeLines := splitNL readme
  if 20 < readmeLines.length then
    joinNL (readmeLines.take 20) ++ ("\n... (truncated)").data
  else readme

/-- Go `llm.BuildCommitPrompt` (part_003 lines 219-277). -/
def BuildCommitPrompt (content readme : List Char) (isFileSummary : Bool)
    (commitConfig : CommitConfig) : List Char :=
  commitPromptRules1.data ++ goIntString commitConfig.MaxLength ++ commitPromptRules2.data
  ++ (if readme = [] then []
      else ("PROJECT README:\n").data ++ truncatedReadme readme ++ ("\n\n").data)
  ++ (if isFileSummary then ("FILE CHANGES SUMMARIZED:\n").data else ("STAGED DIFF:\n").data)
  ++ content

/-- Error kinds a provider run can produce, mirroring the `fmt.Errorf`
branches of `ollama.go` and part_000; each constructor carries exactly the
dynamic data its Go error message embeds. -/
inductive GenError where
  | healthFailed (msg : List Char)
  | network (msg : List Char)
  | noChoices
  | emptyResponse
  | emptyAfterCleaning (raw : List Char)
  | summarizeFailed (e : GenError)
deriving DecidableEq

/-- Response post-processing shared by `generateFromRequest` of
`ollama.go` (lines 167-179) and of part_000 (lines 177-189): trim, reject
blank, clean, reject empty-after-cleaning (carrying the trimmed text the
Go message quotes). -/
def processResponse (raw : List Char) (commitConfig : CommitConfig) :
    Except GenError (List Char) :=
  let message := trimSpace raw
  if message = [] then .error .emptyResponse
  else
    let cleanedMessage := CleanCommitMessage message commitConfig
    if cleanedMessage = [] then .error (.emptyAfterCleaning message)
    else .ok cleanedMessage

/-- Generation request of the Ollama API (`api.GenerateRequest` with the
options `ollama.go` sets). -/
structure GenerateRequest where
  Model : List Char
  Prompt : List Char
  temperature : ℚ
  top_p : ℚ
  num_ctx : Nat
  stop : List (List Char)
deriving DecidableEq

/-- Request built by `summarizeFileChanges` of `ollama.go` (lines 108-126). -/
def summarizeRequest (model diff : List Char) : GenerateRequest :=
  { Model := model, Prompt := BuildSummarizePrompt diff,
    temperature := 0.3, top_p := 0.8, num_ctx := 4096,
    stop := [("\n\nDIFF:").data, ("\n\nCOMMIT").data] }

/-- Request built by `generateFromPrompt` of `ollama.go` (lines 128-144). -/
def commitRequest (model prompt : List Char) : GenerateRequest :=
  { Model := model, Prompt := prompt,
    temperature := 0.7, top_p := 0.9, num_ctx := 4096, stop := [] }

/-- Method `generateFromRequest` of `OllamaProvider`, with the network
call abstracted into `gen` and the issued request logged. -/
def ollamaGenerateFromRequest (gen : GenerateRequest → Except (List Char) (List Char))
    (commitConfig : CommitConfig) (req : GenerateRequest) :
    Except GenError (List Char) × List GenerateRequest :=
  (match gen req with
   | .error e => .error (.network e)
   | .ok raw => processResponse raw commitConfig,
   [req])

/-- Method `GenerateCommitMessage` of `OllamaProvider` (`ollama.go` lines
78-106): health check first, then the direct or two-stage path; the second
component lists the generation requests issued, in order. -/
def ollamaGenerateCommitMessage (health : Except (List Char) Unit)
    (gen : GenerateRequest → Except (List Char) (List Char)) (model : List Char)
    (commitConfig : CommitConfig) (diff readme : List Char) :
    Except GenError (List Char) × List GenerateRequest :=
  match health with
  | .error e => (.error (.healthFailed e), [])
  | .ok _ =>
    if IsDiffTooLarge diff then
      let stage1 := ollamaGenerateFromRequest gen commitConfig (summarizeRequest model diff)
      match stage1.1 with
      | .error e => (.error (.summarizeFailed e), stage1.2)
      | .ok fileSummaries =>
        let stage2 := ollamaGenerateFromRequest gen commitConfig
          (commitRequest model (BuildCommitPrompt fileSummaries readme true commitConfig))
        (stage2.1, stage1.2 ++ stage2.2)
    else
      ollamaGenerateFromRequest gen commitConfig
        (commitRequest model (BuildCommitPrompt diff readme false commitConfig))

/-- Chat message of the OpenAI-compatible wire format (part_000). -/
structure ChatMessage where
  role : List Char
  content : List Char
deriving DecidableEq

/-- Request body of the OpenAI-compatible wire format (part_000). -/
structure ChatCompletionRequest where
  Model : List Char
  Messages : List ChatMessage
  MaxTokens : Nat
  Temperature : ℚ
  TopP : ℚ
  Stop : List (List Char)
  Stream : Bool
deriving DecidableEq

/-- Minimal request issued by `OpenAIProvider.HealthCheck` (part_000 lines
72-81); unset Go struct fields are their zero values. -/
def openaiHealthRequest (model : List Char) : ChatCompletionRequest :=
  { Model := model, Messages := [⟨("user").data, ("test").data⟩],
    MaxTokens := 1, Temperature := 0.1, TopP := 0, Stop := [], Stream := false }

/-- Method `HealthCheck` of `OpenAIProvider` (part_000 lines 71-98); a
successful response is modelled as the list of choice contents, a failed
one as the error text the Go branches inspect. -/
def openaiHealthCheck
    (makeRequest : ChatCompletionRequest → Except (List Char) (List (List Char)))
    (baseURL model : List Char) : Except (List Char) Unit :=
  match makeRequest (openaiHealthRequest model) with
  | .ok _ => .ok ()
  | .error e =>
    .error
      (if containsSub ("connection refused").data e || containsSub ("no such host").data e then
        ("cannot connect to OpenAI API at ").data ++ baseURL
          ++ (" - check your network connection and base_url").data
      else if containsSub ("401").data e || containsSub ("authentication").data e then
        ("authentication failed - check your API key").data
      else if containsSub ("404").data e then
        ("model \x27").data ++ model
          ++ ("\x27 not found - check if the model exists and you have access").data
      else ("health check failed: ").data ++ e)

/-- Request built by `summarizeFileChanges` of part_000 (lines 130-146). -/
def openaiSummarizeRequest (model diff : List Char) : ChatCompletionRequest :=
  { Model := model, Messages := [⟨("user").data, BuildSummarizePrompt diff⟩],
    MaxTokens := 4096, Temperature := 0.3, TopP := 0.8,
    Stop := [("\n\nDIFF:").data, ("\n\nCOMMIT").data], Stream := false }

/-- Request built by `generateFromPrompt` of part_000 (lines 152-165). -/
def openaiCommitRequest (model prompt : List Char) : ChatCompletionRequest :=
  { Model := model, Messages := [⟨("user").data, prompt⟩],
    MaxTokens := 4096, Temperature := 0.7, TopP := 0.9, Stop := [], Stream := false }

/-- Method `generateFromRequest` of `OpenAIProvider` (part_000 lines
167-190), request logged. -/
def openaiGenerateFromRequest
    (makeRequest : ChatCompletionRequest → Except (List Char) (List (List Char)))
    (commitConfig : CommitConfig) (req : ChatCompletionRequest) :
    Except GenError (List Char) × List ChatCompletionRequest :=
  (match makeRequest req with
   | .error e => .error (.network e)
   | .ok choices =>
     match choices with
     | [] => .error .noChoices
     | c :: _ => processResponse c commitConfig,
   [req])

/-- Method `GenerateCommitMessage` of `OpenAIProvider` (part_000 lines
100-128): triage then direct or two-stage generation; unlike the Ollama
provider it performs no health check. -/
def openaiGenerateCommitMessage
    (makeRequest : ChatCompletionRequest → Except (List Char) (List (List Char)))
    (model : List Char) (commitConfig : CommitConfig) (diff readme : List Char) :
    Except GenError (List Char) × List ChatCompletionRequest :=
  if IsDiffTooLarge diff then
    let stage1 := openaiGenerateFromRequest makeRequest commitConfig
      (openaiSummarizeRequest model diff)
    match stage1.1 with
    | .error e => (.error (.summarizeFailed e), stage1.2)
    | .ok fileSummaries =>
      let stage2 := openaiGenerateFromRequest makeRequest commitConfig
        (openaiCommitRequest model (BuildCommitPrompt fileSummaries readme true commitConfig))
      (stage2.1, stage1.2 ++ stage2.2)
  else
    openaiGenerateFromRequest makeRequest commitConfig
      (openaiCommitRequest model (BuildCommitPrompt diff readme false commitConfig))

/-- Absence of both thinking markers: such an input is not mutated by the
marker-removal steps of `CleanCommitMessage`. -/
def NoThinkMarkers (m : List Char) : Prop :=
  containsSub openThink m = false ∧ containsSub closeThink m = false

/-- First line of a message, as Go reads `strings.Split(s, "\n")[0]`. -/
def firstLineOf (l : List Char) : List Char :=
  (splitNL l).headI

/-- Characters that are neither whitespace nor the inserted ellipsis rune:
the content the subject split must preserve. -/
def isContentChar (c : Char) : Bool :=
  !goIsSpace c && !(c = ell)

/-- A concrete diff of 1576 one-letter words, one above the triage
threshold. -/
def bigDiff : List Char :=
  (List.replicate 1576 ("a ").data).flatten

end GitAc

namespace GitAc

/-! ### Whitespace and trimming lemmas -/

/-- Filtering by a predicate false on whitespace ignores a leading
whitespace drop. -/
theorem filter_dropWhile_goIsSpace (q : Char → Bool)
    (hq : ∀ c, goIsSpace c = true → q c = false) :
    ∀ l : List Char, (l.dropWhile goIsSpace).filter q = l.filter q := by
  intro l
  induction l with
  | nil => rfl
  | cons c cs ih =>
    by_cases hc : goIsSpace c
    · simp [List.dropWhile_cons, hc, List.filter_cons, hq c hc, ih]
    · simp [List.dropWhile_cons, hc]

/-- Filtering by a predicate false on whitespace is unchanged by trimming. -/
theorem filter_trimSpace (q : Char → Bool)
    (hq : ∀ c, goIsSpace c = true → q c = false) (l : List Char) :
    (trimSpace l).filter q = l.filter q := by
  unfold trimSpace
  rw [List.filter_reverse, filter_dropWhile_goIsSpace q hq, List.filter_reverse,
    filter_dropWhile_goIsSpace q hq, List.reverse_reverse]

/-- The head of a nonempty `dropWhile` result falsifies the predicate. -/
theorem dropWhile_head_not (p : Char → Bool) :
    ∀ (l : List Char) (c : Char) (cs : List Char), l.dropWhile p = c :: cs → p c = false := by
  intro l
  induction l with
  | nil => intro c cs h; cases h
  | cons a as ih =>
    intro c cs h
    by_cases ha : p a
    · exact ih c cs (by simpa [List.dropWhile_cons, ha] using h)
    · rw [List.dropWhile_cons, if_neg (by simpa using ha)] at h
      cases h
      simpa using ha

/-- A list whose head falsifies the predicate is unchanged by `dropWhile`. -/
theorem dropWhile_eq_self_of (p : Char → Bool) :
    ∀ l : List Char, (∀ c cs, l = c :: cs → p c = false) → l.dropWhile p = l := by
  intro l h
  cases l with
  | nil => rfl
  | cons c cs => simp [List.dropWhile_cons, h c cs rfl]

/-- Border characters of a message surviving `trimSpace` unchanged. -/
def NoBorderWs (l : List Char) : Prop :=
  (∀ c, l.head? = some c → goIsSpace c = false) ∧
  (∀ c, l.getLast? = some c → goIsSpace c = false)

/-- A trimmed message has no whitespace at its borders. -/
theorem trimSpace_noBorderWs (l : List Char) : NoBorderWs (trimSpace l) := by
  unfold trimSpace NoBorderWs
  constructor
  · intro c hc
    rw [List.head?_reverse] at hc
    rcases hb : List.dropWhile goIsSpace (l.dropWhile goIsSpace).reverse with _ | ⟨a, as⟩
    · rw [hb] at hc; cases hc
    · have hsuf : a :: as <:+ (l.dropWhile goIsSpace).reverse := hb ▸ List.dropWhile_suffix _
      rcases hsuf with ⟨pre, hpre⟩
      have h1 : ((l.dropWhile goIsSpace).reverse).getLast? = some c := by
        rw [← hpre, List.getLast?_append_of_ne_nil _ (by simp : (a :: as) ≠ [])]
        rw [hb] at hc
        exact hc
      rw [List.getLast?_reverse] at h1
      rcases ha : l.dropWhile goIsSpace with _ | ⟨c0, cs0⟩
      · rw [ha] at h1; cases h1
      · rw [ha] at h1
        simp at h1
        subst h1
        exact dropWhile_head_not goIsSpace l c0 cs0 ha
  · intro c hc
    rw [List.getLast?_reverse] at hc
    rcases hd : List.dropWhile goIsSpace (l.dropWhile goIsSpace).reverse with _ | ⟨a, as⟩
    · rw [hd] at hc; cases hc
    · rw [hd] at hc
      simp at hc
      subst hc
      exact dropWhile_head_not goIsSpace _ a as hd

/-- A message without whitespace at its borders is unchanged by trimming. -/
theorem trimSpace_eq_self {l : List Char} (h : NoBorderWs l) : trimSpace l = l := by
  unfold trimSpace
  have h1 : l.dropWhile goIsSpace = l := by
    apply dropWhile_eq_self_of
    intro c cs hl
    exact h.1 c (by rw [hl]; rfl)
  rw [h1]
  have h2 : l.reverse.dropWhile goIsSpace = l.reverse := by
    apply dropWhile_eq_self_of
    intro c cs hl
    apply h.2 c
    rw [← List.head?_reverse, hl]
    rfl
  rw [h2, List.reverse_reverse]

/-- Trimming is idempotent. -/
theorem trimSpace_trimSpace (l : List Char) : trimSpace (trimSpace l) = trimSpace l :=
  trimSpace_eq_self (trimSpace_noBorderWs l)

/-- The trimmed message is a contiguous slice of the original. -/
theorem trimSpace_decomp (l : List Char) : ∃ s t, l = s ++ trimSpace l ++ t := by
  refine ⟨l.takeWhile goIsSpace,
    ((l.dropWhile goIsSpace).reverse.takeWhile goIsSpace).reverse, ?_⟩
  unfold trimSpace
  conv_lhs => rw [← List.takeWhile_append_dropWhile goIsSpace l]
  rw [List.append_assoc]
  congr 1
  conv_lhs => rw [← List.reverse_reverse (l.dropWhile goIsSpace),
    ← List.takeWhile_append_dropWhile goIsSpace (l.dropWhile goIsSpace).reverse]
  rw [List.reverse_append]

/-! ### Substring search lemmas -/

/-- Success of `startsWith` is exactly having the pattern as initial
segment. -/
theorem startsWith_iff (pat : List Char) :
    ∀ l, startsWith pat l = true ↔ ∃ t, l = pat ++ t := by
  induction pat with
  | nil => intro l; simp [startsWith]
  | cons p ps ih =>
    intro l
    cases l with
    | nil => simp [startsWith]
    | cons c cs =>
      simp only [startsWith, Bool.and_eq_true, beq_iff_eq, ih cs]
      constructor
      · rintro ⟨rfl, t, rfl⟩; exact ⟨t, rfl⟩
      · rintro ⟨t, ht⟩
        rw [List.cons_append] at ht
        cases ht
        exact ⟨rfl, t, rfl⟩

/-- A successful first-occurrence search points at the pattern. -/
theorem idxOfSub_startsWith (pat : List Char) :
    ∀ (l : List Char) (i : Nat), idxOfSub pat l = some i →
      startsWith pat (l.drop i) = true := by
  intro l
  induction l with
  | nil =>
    intro i h
    unfold idxOfSub at h
    by_cases hp : pat = []
    · subst hp
      simp at h
      subst h
      rfl
    · simp [hp] at h
  | cons c cs ih =>
    intro i h
    unfold idxOfSub at h
    by_cases hs : startsWith pat (c :: cs) = true
    · rw [if_pos hs] at h
      cases h
      simpa using hs
    · rw [if_neg hs] at h
      rcases Option.map_eq_some'.mp h with ⟨j, hj, rfl⟩
      simpa using ih j hj

/-- A successful first-occurrence search is minimal. -/
theorem idxOfSub_min (pat : List Char) :
    ∀ (l : List Char) (i j : Nat), idxOfSub pat l = some i →
      startsWith pat (l.drop j) = true → i ≤ j := by
  intro l
  induction l with
  | nil =>
    intro i j h hj
    unfold idxOfSub at h
    by_cases hp : pat = []
    · subst hp; simp at h; omega
    · simp [hp] at h
  | cons c cs ih =>
    intro i j h hj
    unfold idxOfSub at h
    by_cases hs : startsWith pat (c :: cs) = true
    · rw [if_pos hs] at h; cases h; omega
    · rw [if_neg hs] at h
      rcases Option.map_eq_some'.mp h with ⟨i', hi', rfl⟩
      cases j with
      | zero => exact absurd (by simpa using hj) hs
      | succ j' => exact Nat.succ_le_succ (ih i' j' hi' (by simpa using hj))

/-- A match at the head makes the containment test succeed. -/
theorem containsSub_of_startsWith {pat l : List Char}
    (h : startsWith pat l = true) : containsSub pat l = true := by
  unfold containsSub
  cases l with
  | nil =>
    cases pat with
    | nil => simp [idxOfSub]
    | cons p ps => simp [startsWith] at h
  | cons c cs =>
    unfold idxOfSub
    rw [if_pos h]
    rfl

/-- Containment in the tail implies containment in the whole. -/
theorem containsSub_cons {pat : List Char} (c : Char) {cs : List Char}
    (h : containsSub pat cs = true) : containsSub pat (c :: cs) = true := by
  unfold containsSub idxOfSub
  by_cases hs : startsWith pat (c :: cs) = true
  · simp [hs]
  · rw [if_neg hs]
    unfold containsSub at h
    rcases h' : idxOfSub pat cs with _ | j
    · rw [h'] at h; cases h
    · simp

/-- An explicit occurrence makes the search succeed. -/
theorem containsSub_of_decomp (pat : List Char) :
    ∀ (s t : List Char), containsSub pat (s ++ pat ++ t) = true := by
  intro s t
  induction s with
  | nil =>
    rw [List.nil_append]
    exact containsSub_of_startsWith ((startsWith_iff pat _).mpr ⟨t, rfl⟩)
  | cons x s' ih =>
    rw [show (x :: s') ++ pat ++ t = x :: (s' ++ pat ++ t) by simp]
    exact containsSub_cons x ih

/-- Success of the containment test is exactly having an occurrence. -/
theorem containsSub_iff (pat l : List Char) :
    containsSub pat l = true ↔ ∃ s t, l = s ++ pat ++ t := by
  constructor
  · intro h
    unfold containsSub at h
    rcases Option.isSome_iff_exists.mp h with ⟨i, hi⟩
    have hsw := idxOfSub_startsWith pat l i hi
    rcases (startsWith_iff pat _).mp hsw with ⟨t, ht⟩
    exact ⟨l.take i, t, by rw [List.append_assoc, ← ht, List.take_append_drop]⟩
  · rintro ⟨s, t, rfl⟩
    exact containsSub_of_decomp pat s t

/-- Containment in a contiguous slice implies containment in the whole. -/
theorem containsSub_of_slice {pat x : List Char} (s t : List Char)
    (h : containsSub pat x = true) : containsSub pat (s ++ x ++ t) = true := by
  rcases (containsSub_iff pat x).mp h with ⟨s', t', rfl⟩
  rw [containsSub_iff]
  exact ⟨s ++ s', t' ++ t, by simp⟩

/-- Containment survives trimming (contrapositive: a marker-free message
stays marker-free after trimming). -/
theorem containsSub_trimSpace {pat l : List Char}
    (h : containsSub pat (trimSpace l) = true) : containsSub pat l = true := by
  rcases trimSpace_decomp l with ⟨s, t, hl⟩
  rw [hl]
  exact containsSub_of_slice s t h

/-- A failed containment test means the search found nothing. -/
theorem idxOfSub_eq_none {pat l : List Char} (h : containsSub pat l = false) :
    idxOfSub pat l = none := by
  unfold containsSub at h
  exact Option.not_isSome_iff_eq_none.mp (by simp [h])

/-- With no occurrence, Go `strings.Split` returns the whole string. -/
theorem splitOnSub_no_occurrence {sep l : List Char}
    (h : containsSub sep l = false) : splitOnSub sep l = [l] := by
  unfold splitOnSub splitFuel
  rw [idxOfSub_eq_none h]

/-- With no occurrence, `strings.ReplaceAll` is the identity. -/
theorem replaceAllEmpty_no_occurrence {sep l : List Char}
    (h : containsSub sep l = false) : replaceAllEmpty sep l = l := by
  unfold replaceAllEmpty
  rw [splitOnSub_no_occurrence h]
  simp

/-! ### Line splitting and joining lemmas -/

/-- Go `strings.Split` never returns an empty slice. -/
theorem splitNL_ne_nil (l : List Char) : splitNL l ≠ [] := by
  cases l with
  | nil => simp [splitNL]
  | cons c cs =>
    unfold splitNL
    by_cases hc : c = '\n'
    · simp [hc]
    · rw [if_neg hc]
      rcases splitNL cs with _ | ⟨p, ps⟩ <;> simp

/-- Joining the split lines restores the message. -/
theorem joinNL_splitNL (l : List Char) : joinNL (splitNL l) = l := by
  induction l with
  | nil => rfl
  | cons c cs ih =>
    unfold splitNL
    by_cases hc : c = '\n'
    · rw [if_pos hc]
      rcases hcs : splitNL cs with _ | ⟨p, ps⟩
      · exact absurd hcs (splitNL_ne_nil cs)
      · rw [hcs] at ih
        subst hc
        simpa [joinNL] using ih
    · rw [if_neg hc]
      rcases hcs : splitNL cs with _ | ⟨p, ps⟩
      · exact absurd hcs (splitNL_ne_nil cs)
      · rw [hcs] at ih
        cases ps with
        | nil => simpa [joinNL] using congrArg (c :: ·) ih
        | cons q ps' => simpa [joinNL] using congrArg (c :: ·) ih

/-- Lines produced by the newline split contain no newline. -/
theorem splitNL_no_nl (l : List Char) : ∀ p ∈ splitNL l, '\n' ∉ p := by
  induction l with
  | nil => simp [splitNL]
  | cons c cs ih =>
    unfold splitNL
    by_cases hc : c = '\n'
    · rw [if_pos hc]
      intro p hp
      rcases hp with _ | hp
      · simp
      · exact ih p (by assumption)
    · rw [if_neg hc]
      rcases hcs : splitNL cs with _ | ⟨q, qs⟩
      · exact absurd hcs (splitNL_ne_nil cs)
      · intro p hp
        rcases hp with _ | hp
        · have hq := ih q (by rw [hcs]; exact List.mem_cons_self q qs)
          simp only [List.mem_cons]
          rintro (rfl | hmem)
          · exact hc rfl
          · exact hq hmem
        · exact ih p (by rw [hcs]; exact List.mem_cons_of_mem q (by assumption))

/-- A newline-free message splits into itself alone. -/
theorem splitNL_of_no_nl {l : List Char} (h : '\n' ∉ l) : splitNL l = [l] := by
  induction l with
  | nil => rfl
  | cons c cs ih =>
    unfold splitNL
    rw [if_neg (by intro hc; exact h (by rw [hc]; exact List.mem_cons_self _ _))]
    rw [ih (fun hm => h (List.mem_cons_of_mem c hm))]

/-- Unfolding equation of `splitNL` at a non-newline head. -/
theorem splitNL_cons_ne {c : Char} (cs : List Char) (hc : ¬c = '\n') :
    splitNL (c :: cs) =
      match splitNL cs with
      | [] => [[c]]
      | p :: ps => (c :: p) :: ps := by
  conv_lhs => unfold splitNL
  rw [if_neg hc]

/-- Splitting after a newline-free chunk peels off one line. -/
theorem splitNL_append_nl {p : List Char} (r : List Char) (h : '\n' ∉ p) :
    splitNL (p ++ '\n' :: r) = p :: splitNL r := by
  induction p with
  | nil => simp [splitNL]
  | cons c cs ih =>
    have hc : ¬c = '\n' := fun hc => h (by rw [hc]; exact List.mem_cons_self _ _)
    rw [List.cons_append, splitNL_cons_ne _ hc, ih (fun hm => h (List.mem_cons_of_mem c hm))]

/-- Splitting the join of nonempty, newline-free lines restores them. -/
theorem splitNL_joinNL :
    ∀ parts : List (List Char), parts ≠ [] → (∀ p ∈ parts, '\n' ∉ p) →
      splitNL (joinNL parts) = parts := by
  intro parts
  induction parts with
  | nil => intro h; exact absurd rfl h
  | cons p ps ih =>
    intro _ hnl
    cases ps with
    | nil =>
      show splitNL (joinNL [p]) = [p]
      exact splitNL_of_no_nl (hnl p (List.mem_cons_self _ _))
    | cons q ps' =>
      show splitNL (p ++ '\n' :: joinNL (q :: ps')) = p :: (q :: ps')
      rw [splitNL_append_nl _ (hnl p (List.mem_cons_self _ _))]
      rw [ih (by simp) (fun r hr => hnl r (List.mem_cons_of_mem p hr))]

/-- Filtering by a predicate false on newline distributes over the join. -/
theorem filter_joinNL (q : Char → Bool) (hq : q '\n' = false) :
    ∀ parts : List (List Char),
      (joinNL parts).filter q = (parts.map (List.filter q)).flatten := by
  intro parts
  induction parts with
  | nil => rfl
  | cons p ps ih =>
    cases ps with
    | nil => simp [joinNL]
    | cons r ps' =>
      show (p ++ '\n' :: joinNL (r :: ps')).filter q = _
      rw [List.filter_append, List.filter_cons, hq]
      simpa using congrArg (p.filter q ++ ·) ih

/-! ### Marker-phase lemmas -/

/-- On a marker-free message the marker phase only trims. -/
theorem markerPhase_of_no_markers {m : List Char} (h : NoThinkMarkers m) :
    markerPhase m = trimSpace m := by
  obtain ⟨ho, hc⟩ := h
  have hto : containsSub openThink (trimSpace m) = false := by
    by_contra hx
    rw [← ne_eq, Bool.ne_false_iff] at hx
    rw [containsSub_trimSpace hx] at ho
    cases ho
  have htc : containsSub closeThink (trimSpace m) = false := by
    by_contra hx
    rw [← ne_eq, Bool.ne_false_iff] at hx
    rw [containsSub_trimSpace hx] at hc
    cases hc
  unfold markerPhase
  simp only [htc, Bool.false_eq_true, if_false]
  rw [show removeThinkFuel ((trimSpace m).length + 1) (trimSpace m) = trimSpace m by
        unfold removeThinkFuel
        rw [hto]
        simp]
  rw [replaceAllEmpty_no_occurrence hto, replaceAllEmpty_no_occurrence htc,
    trimSpace_trimSpace]

/-! ### Subject-splitting lemmas -/

/-- A successful last-space search stays inside the list. -/
theorem lastIdxSpace_lt_length :
    ∀ (l : List Char) (i : Nat), lastIdxSpace l = some i → i < l.length := by
  intro l
  induction l with
  | nil => intro i h; cases h
  | cons c cs ih =>
    intro i h
    unfold lastIdxSpace at h
    rcases hcs : lastIdxSpace cs with _ | j
    · rw [hcs] at h
      by_cases hc : c = ' '
      · rw [if_pos hc] at h; cases h; simp
      · rw [if_neg hc] at h; cases h
    · rw [hcs] at h
      cases h
      have := ih j hcs
      simp
      omega

/-- A successful last-space search points at a space. -/
theorem lastIdxSpace_decomp :
    ∀ (l : List Char) (i : Nat), lastIdxSpace l = some i →
      ∃ u v, l = u ++ ' ' :: v ∧ u.length = i := by
  intro l
  induction l with
  | nil => intro i h; cases h
  | cons c cs ih =>
    intro i h
    unfold lastIdxSpace at h
    rcases hcs : lastIdxSpace cs with _ | j
    · rw [hcs] at h
      by_cases hc : c = ' '
      · rw [if_pos hc] at h
        cases h
        exact ⟨[], cs, by rw [hc]; rfl, rfl⟩
      · rw [if_neg hc] at h; cases h
    · rw [hcs] at h
      cases h
      rcases ih j hcs with ⟨u, v, huv, hlen⟩
      exact ⟨c :: u, v, by rw [huv]; rfl, by simp [hlen]⟩

/-- Case analysis of the subject-splitting phase: either the subject fits
and the lines are rejoined unchanged, or it is split at the last space
before the limit, or at the raw character boundary, each case possibly
dropping an all-whitespace remainder; the lines after the first are passed
through untouched in every case. -/
theorem fixSubject_eq_cases (cleaned : List Char) (cfg : CommitConfig)
    {l0 : List Char} {rest : List (List Char)} (h : splitNL cleaned = l0 :: rest) :
    (¬(0 < cfg.MaxLength ∧ cfg.MaxLength < ((trimSpace l0).length : Int)) ∧
       fixSubject cleaned cfg = joinNL (l0 :: rest)) ∨
    ((0 < cfg.MaxLength ∧ cfg.MaxLength < ((trimSpace l0).length : Int)) ∧
      ((0 < goLastIndexSpace ((trimSpace l0).take (cfg.MaxLength - 1).toNat) ∧
        ((trimSpace ((trimSpace l0).drop
             (goLastIndexSpace ((trimSpace l0).take (cfg.MaxLength - 1).toNat)).toNat) = [] ∧
           fixSubject cleaned cfg = joinNL (((trimSpace l0).take
             (goLastIndexSpace ((trimSpace l0).take (cfg.MaxLength - 1).toNat)).toNat
             ++ [ell]) :: rest)) ∨
         (trimSpace ((trimSpace l0).drop
             (goLastIndexSpace ((trimSpace l0).take (cfg.MaxLength - 1).toNat)).toNat) ≠ [] ∧
           fixSubject cleaned cfg = joinNL (((trimSpace l0).take
             (goLastIndexSpace ((trimSpace l0).take (cfg.MaxLength - 1).toNat)).toNat
             ++ [ell]) ::
             (ell :: trimSpace ((trimSpace l0).drop
               (goLastIndexSpace ((trimSpace l0).take (cfg.MaxLength - 1).toNat)).toNat)) ::
             rest)))) ∨
       (¬0 < goLastIndexSpace ((trimSpace l0).take (cfg.MaxLength - 1).toNat) ∧
        (((trimSpace l0).drop (cfg.MaxLength - 1).toNat = [] ∧
           fixSubject cleaned cfg =
             joinNL (((trimSpace l0).take (cfg.MaxLength - 1).toNat ++ [ell]) :: rest)) ∨
         ((trimSpace l0).drop (cfg.MaxLength - 1).toNat ≠ [] ∧
           fixSubject cleaned cfg =
             joinNL (((trimSpace l0).take (cfg.MaxLength - 1).toNat ++ [ell]) ::
               (ell :: (trimSpace l0).drop (cfg.MaxLength - 1).toNat) :: rest)))))) := by
  unfold fixSubject
  rw [h]
  simp only
  by_cases hc : 0 < cfg.MaxLength ∧ cfg.MaxLength < ((trimSpace l0).length : Int)
  · rw [if_pos hc]
    right
    refine ⟨hc, ?_⟩
    by_cases hsi : 0 < goLastIndexSpace ((trimSpace l0).take (cfg.MaxLength - 1).toNat)
    · rw [if_pos hsi]
      left
      refine ⟨hsi, ?_⟩
      by_cases hrem : trimSpace ((trimSpace l0).drop
          (goLastIndexSpace ((trimSpace l0).take (cfg.MaxLength - 1).toNat)).toNat) = []
      · rw [if_pos hrem]
        exact Or.inl ⟨hrem, rfl⟩
      · rw [if_neg hrem]
        exact Or.inr ⟨hrem, rfl⟩
    · rw [if_neg hsi]
      right
      refine ⟨hsi, ?_⟩
      by_cases hrem : (trimSpace l0).drop (cfg.MaxLength - 1).toNat = []
      · rw [if_pos hrem]
        exact Or.inl ⟨hrem, rfl⟩
      · rw [if_neg hrem]
        exact Or.inr ⟨hrem, rfl⟩
  · rw [if_neg hc]
    exact Or.inl ⟨hc, rfl⟩

/-- Characters of the trimmed message come from the original. -/
theorem mem_of_mem_trimSpace {a : Char} {l : List Char} (h : a ∈ trimSpace l) :
    a ∈ l := by
  rcases trimSpace_decomp l with ⟨u, v, hl⟩
  rw [hl]
  simp only [List.mem_append]
  exact Or.inl (Or.inr h)

/-- Trimming never lengthens a message. -/
theorem trimSpace_length_le (l : List Char) : (trimSpace l).length ≤ l.length := by
  rcases trimSpace_decomp l with ⟨u, v, hl⟩
  conv_rhs => rw [hl]
  simp
  omega

/-- A positive Go last-space index comes from a successful search. -/
theorem goLastIndexSpace_pos {l : List Char} (h : 0 < goLastIndexSpace l) :
    ∃ i : Nat, lastIdxSpace l = some i ∧ 0 < i ∧ (goLastIndexSpace l).toNat = i := by
  rcases hl : lastIdxSpace l with _ | i
  · simp only [goLastIndexSpace, hl] at h
    omega
  · simp only [goLastIndexSpace, hl] at h ⊢
    refine ⟨i, rfl, ?_, by simp⟩
    exact_mod_cast h

/-- The join of lines ending in a nonempty line ends as that line does. -/
theorem joinNL_getLast?_of_ne_nil :
    ∀ (parts : List (List Char)) (p : List Char),
      parts.getLast? = some p → p ≠ [] → (joinNL parts).getLast? = p.getLast? := by
  intro parts
  induction parts with
  | nil => intro p h; cases h
  | cons x xs ih =>
    intro p h hp
    cases xs with
    | nil =>
      simp at h
      subst h
      rfl
    | cons q ps =>
      have h' : (q :: ps).getLast? = some p := by
        rw [← h]
        exact List.getLast?_cons_cons.symm
      have hjoin := ih p h' hp
      show (x ++ '\n' :: joinNL (q :: ps)).getLast? = p.getLast?
      rw [List.getLast?_append_of_ne_nil _ (by simp)]
      have hne : joinNL (q :: ps) ≠ [] := by
        intro hnil
        rw [hnil] at hjoin
        exact hp (List.getLast?_eq_none_iff.mp hjoin.symm)
      rcases hy : joinNL (q :: ps) with _ | ⟨y, ys⟩
      · exact absurd hy hne
      · rw [List.getLast?_cons_cons, ← hy, hjoin]

/-- The join of at least two lines ending in an empty line ends with the
separating newline. -/
theorem joinNL_getLast?_of_nil :
    ∀ (parts : List (List Char)),
      parts.getLast? = some [] → 2 ≤ parts.length →
      (joinNL parts).getLast? = some '\n' := by
  intro parts
  induction parts with
  | nil => intro h; cases h
  | cons x xs ih =>
    intro h hlen
    cases xs with
    | nil => simp at hlen
    | cons q ps =>
      have h' : (q :: ps).getLast? = some [] := by
        rw [← h]
        exact List.getLast?_cons_cons.symm
      show (x ++ '\n' :: joinNL (q :: ps)).getLast? = some '\n'
      rw [List.getLast?_append_of_ne_nil _ (by simp)]
      cases ps with
      | nil =>
        simp at h'
        subst h'
        rfl
      | cons r ps' =>
        have := ih h' (by simp)
        rcases hy : joinNL (q :: r :: ps') with _ | ⟨y, ys⟩
        · rw [hy] at this; cases this
        · rw [List.getLast?_cons_cons, ← hy, this]

/-- The join of lines starting with a nonempty line starts as that line
does. -/
theorem joinNL_head?_of_ne_nil (x : List Char) (r : List (List Char)) (hx : x ≠ []) :
    (joinNL (x :: r)).head? = x.head? := by
  cases r with
  | nil => rfl
  | cons q ps =>
    show (x ++ '\n' :: joinNL (q :: ps)).head? = x.head?
    exact List.head?_append_of_ne_nil _ hx

/-- Shape of the subject-splitting result: the first line is replaced by
one or two newline-free lines whose trimmed head fits within a positive
`MaxLength`, and all later lines pass through untouched. -/
theorem fixSubject_lines_shape (cleaned : List Char) (cfg : CommitConfig)
    {l0 : List Char} {rest : List (List Char)} (h : splitNL cleaned = l0 :: rest) :
    ∃ hd : List (List Char),
      (hd.length = 1 ∨ hd.length = 2) ∧
      (∀ p ∈ hd, '\n' ∉ p) ∧
      fixSubject cleaned cfg = joinNL (hd ++ rest) ∧
      splitNL (fixSubject cleaned cfg) = hd ++ rest ∧
      (0 < cfg.MaxLength → ((trimSpace hd.headI).length : Int) ≤ cfg.MaxLength) := by
  have hnl0 : '\n' ∉ l0 :=
    splitNL_no_nl cleaned l0 (by rw [h]; exact List.mem_cons_self _ _)
  have hnls : '\n' ∉ trimSpace l0 := fun hm => hnl0 (mem_of_mem_trimSpace hm)
  have hrestnl : ∀ p ∈ rest, '\n' ∉ p := fun p hp =>
    splitNL_no_nl cleaned p (by rw [h]; exact List.mem_cons_of_mem _ hp)
  have hellnl : ('\n' : Char) ≠ ell := by decide
  rcases fixSubject_eq_cases cleaned cfg h with ⟨hc, heq⟩ | ⟨hc, hcase⟩
  · refine ⟨[l0], Or.inl rfl, ?_, heq, ?_, ?_⟩
    · intro p hp
      rcases List.mem_cons.mp hp with rfl | hp
      · exact hnl0
      · simp at hp
    · show splitNL (fixSubject cleaned cfg) = l0 :: rest
      rw [heq]
      refine splitNL_joinNL _ (by simp) ?_
      intro p hp
      rcases List.mem_cons.mp hp with rfl | hp
      · exact hnl0
      · exact hrestnl p hp
    · intro hM
      have hnot : ¬(cfg.MaxLength < ((trimSpace l0).length : Int)) := fun hx => hc ⟨hM, hx⟩
      show ((trimSpace l0).length : Int) ≤ cfg.MaxLength
      omega
  · obtain ⟨hM, hMlt⟩ := hc
    rcases hcase with ⟨hsi, hsub⟩ | ⟨hsi, hsub⟩
    · -- split at the last space
      obtain ⟨i, hi, hipos, hitonat⟩ := goLastIndexSpace_pos hsi
      have hilt : i < ((trimSpace l0).take (cfg.MaxLength - 1).toNat).length :=
        lastIdxSpace_lt_length _ i hi
      rw [List.length_take] at hilt
      have hheadnl : '\n' ∉ (trimSpace l0).take i ++ [ell] := by
        intro hm
        rcases List.mem_append.mp hm with hm | hm
        · exact hnls (List.take_subset _ _ hm)
        · rw [List.mem_singleton] at hm
          exact hellnl hm
      have hheadlen : (trimSpace ((trimSpace l0).take i ++ [ell])).length ≤ i + 1 := by
        have h1 := trimSpace_length_le ((trimSpace l0).take i ++ [ell])
        have h2 : ((trimSpace l0).take i ++ [ell]).length ≤ i + 1 := by
          rw [List.length_append, List.length_take]
          simp
        omega
      have hbound : ((trimSpace ((trimSpace l0).take i ++ [ell])).length : Int) ≤
          cfg.MaxLength := by omega
      rw [hitonat] at hsub
      rcases hsub with ⟨hrem, heq⟩ | ⟨hrem, heq⟩
      · refine ⟨[(trimSpace l0).take i ++ [ell]], Or.inl rfl, ?_, heq, ?_, fun _ => hbound⟩
        · intro p hp
          rcases List.mem_cons.mp hp with rfl | hp
          · exact hheadnl
          · simp at hp
        · show splitNL (fixSubject cleaned cfg) = ((trimSpace l0).take i ++ [ell]) :: rest
          rw [heq]
          refine splitNL_joinNL _ (by simp) ?_
          intro p hp
          rcases List.mem_cons.mp hp with rfl | hp
          · exact hheadnl
          · exact hrestnl p hp
      · have hmidnl : '\n' ∉ ell :: trimSpace ((trimSpace l0).drop i) := by
          intro hm
          rcases List.mem_cons.mp hm with hm | hm
          · exact hellnl hm
          · exact hnls (List.drop_subset _ _ (mem_of_mem_trimSpace hm))
        refine ⟨[(trimSpace l0).take i ++ [ell],
          ell :: trimSpace ((trimSpace l0).drop i)], Or.inr rfl, ?_, heq, ?_, fun _ => hbound⟩
        · intro p hp
          rcases List.mem_cons.mp hp with rfl | hp
          · exact hheadnl
          rcases List.mem_cons.mp hp with rfl | hp
          · exact hmidnl
          · simp at hp
        · show splitNL (fixSubject cleaned cfg) =
            ((trimSpace l0).take i ++ [ell]) :: (ell :: trimSpace ((trimSpace l0).drop i)) :: rest
          rw [heq]
          refine splitNL_joinNL _ (by simp) ?_
          intro p hp
          rcases List.mem_cons.mp hp with rfl | hp
          · exact hheadnl
          rcases List.mem_cons.mp hp with rfl | hp
          · exact hmidnl
          · exact hrestnl p hp
    · -- split at the character boundary
      have hheadnl : '\n' ∉ (trimSpace l0).take (cfg.MaxLength - 1).toNat ++ [ell] := by
        intro hm
        rcases List.mem_append.mp hm with hm | hm
        · exact hnls (List.take_subset _ _ hm)
        · rw [List.mem_singleton] at hm
          exact hellnl hm
      have hbound : ((trimSpace ((trimSpace l0).take (cfg.MaxLength - 1).toNat ++ [ell])).length : Int) ≤
          cfg.MaxLength := by
        have h1 := trimSpace_length_le ((trimSpace l0).take (cfg.MaxLength - 1).toNat ++ [ell])
        have h2 : ((trimSpace l0).take (cfg.MaxLength - 1).toNat ++ [ell]).length ≤
            (cfg.MaxLength - 1).toNat + 1 := by
          rw [List.length_append, List.length_take]
          simp
        omega
      rcases hsub with ⟨hrem, heq⟩ | ⟨hrem, heq⟩
      · refine ⟨[(trimSpace l0).take (cfg.MaxLength - 1).toNat ++ [ell]], Or.inl rfl, ?_,
          heq, ?_, fun _ => hbound⟩
        · intro p hp
          rcases List.mem_cons.mp hp with rfl | hp
          · exact hheadnl
          · simp at hp
        · show splitNL (fixSubject cleaned cfg) =
            ((trimSpace l0).take (cfg.MaxLength - 1).toNat ++ [ell]) :: rest
          rw [heq]
          refine splitNL_joinNL _ (by simp) ?_
          intro p hp
          rcases List.mem_cons.mp hp with rfl | hp
          · exact hheadnl
          · exact hrestnl p hp
      · have hmidnl : '\n' ∉ ell :: (trimSpace l0).drop (cfg.MaxLength - 1).toNat := by
          intro hm
          rcases List.mem_cons.mp hm with hm | hm
          · exact hellnl hm
          · exact hnls (List.drop_subset _ _ hm)
        refine ⟨[(trimSpace l0).take (cfg.MaxLength - 1).toNat ++ [ell],
          ell :: (trimSpace l0).drop (cfg.MaxLength - 1).toNat], Or.inr rfl, ?_, heq,
          ?_, fun _ => hbound⟩
        · intro p hp
          rcases List.mem_cons.mp hp with rfl | hp
          · exact hheadnl
          rcases List.mem_cons.mp hp with rfl | hp
          · exact hmidnl
          · simp at hp
        · show splitNL (fixSubject cleaned cfg) =
            ((trimSpace l0).take (cfg.MaxLength - 1).toNat ++ [ell]) ::
              (ell :: (trimSpace l0).drop (cfg.MaxLength - 1).toNat) :: rest
          rw [heq]
          refine splitNL_joinNL _ (by simp) ?_
          intro p hp
          rcases List.mem_cons.mp hp with rfl | hp
          · exact hheadnl
          rcases List.mem_cons.mp hp with rfl | hp
          · exact hmidnl
          · exact hrestnl p hp

/-- Whitespace characters are not content characters. -/
theorem isContentChar_ws {c : Char} (h : goIsSpace c = true) :
    isContentChar c = false := by
  unfold isContentChar
  rw [h]
  rfl

/-- The subject split preserves the content characters of the message. -/
theorem fixSubject_filter (cleaned : List Char) (cfg : CommitConfig) :
    (fixSubject cleaned cfg).filter isContentChar = cleaned.filter isContentChar := by
  rcases hsp : splitNL cleaned with _ | ⟨l0, rest⟩
  · exact absurd hsp (splitNL_ne_nil cleaned)
  have hnlc : isContentChar '\n' = false := by decide
  have hellc : isContentChar ell = false := by decide
  have hcln : cleaned.filter isContentChar =
      (trimSpace l0).filter isContentChar ++
        ((rest.map (List.filter isContentChar)).flatten) := by
    conv_lhs => rw [← joinNL_splitNL cleaned, hsp]
    rw [filter_joinNL _ hnlc]
    simp only [List.map_cons, List.flatten_cons]
    rw [filter_trimSpace _ (fun c hc => isContentChar_ws hc)]
  have htake : ∀ k : Nat,
      ((trimSpace l0).take k ++ [ell]).filter isContentChar =
        ((trimSpace l0).take k).filter isContentChar := by
    intro k
    rw [List.filter_append]
    simp [hellc]
  rcases fixSubject_eq_cases cleaned cfg hsp with ⟨_, heq⟩ | ⟨_, hcase⟩
  · rw [heq, ← hsp, joinNL_splitNL]
  · rcases hcase with ⟨hsi, ⟨hrem, heq⟩ | ⟨hrem, heq⟩⟩ | ⟨hsi, ⟨hrem, heq⟩ | ⟨hrem, heq⟩⟩
    · rw [heq, filter_joinNL _ hnlc, hcln]
      simp only [List.map_cons, List.flatten_cons, htake]
      have hdropf : ((trimSpace l0).drop
          (goLastIndexSpace ((trimSpace l0).take (cfg.MaxLength - 1).toNat)).toNat).filter
            isContentChar = [] := by
        rw [← filter_trimSpace isContentChar (fun c hc => isContentChar_ws hc), hrem]
        rfl
      conv_rhs => rw [← List.take_append_drop
        (goLastIndexSpace ((trimSpace l0).take (cfg.MaxLength - 1).toNat)).toNat
        (trimSpace l0), List.filter_append, hdropf]
      simp
    · rw [heq, filter_joinNL _ hnlc, hcln]
      simp only [List.map_cons, List.flatten_cons, htake]
      rw [List.filter_cons, hellc]
      rw [filter_trimSpace isContentChar (fun c hc => isContentChar_ws hc)]
      conv_rhs => rw [← List.take_append_drop
        (goLastIndexSpace ((trimSpace l0).take (cfg.MaxLength - 1).toNat)).toNat
        (trimSpace l0), List.filter_append]
      simp
    · rw [heq, filter_joinNL _ hnlc, hcln]
      simp only [List.map_cons, List.flatten_cons, htake]
      have hdropf : ((trimSpace l0).drop (cfg.MaxLength - 1).toNat).filter
          isContentChar = [] := by
        rw [hrem]
        rfl
      conv_rhs => rw [← List.take_append_drop (cfg.MaxLength - 1).toNat (trimSpace l0),
        List.filter_append, hdropf]
      simp
    · rw [heq, filter_joinNL _ hnlc, hcln]
      simp only [List.map_cons, List.flatten_cons, htake]
      rw [List.filter_cons, hellc]
      conv_rhs => rw [← List.take_append_drop (cfg.MaxLength - 1).toNat (trimSpace l0),
        List.filter_append]
      simp

/-! ### Claim C1 -/

/-- C1 counterexample: with `MaxLength = 20`, the message
`"a" ++ 20 spaces ++ "\nb"` (trimmed subject `"a"` fits, so the raw first
line is kept) is returned with a 21-character first line, exceeding the
limit. -/
theorem C1_counterexample :
    (0 : Int) < 20 ∧
    ((firstLineOf (CleanCommitMessage ("a                    \nb").data
      (CommitConfig.mk 20))).length : Int) = 21 := by
  constructor
  · decide
  · decide

/-- C1 (amended): for every input and every positive `MaxLength`, the
first line of `CleanCommitMessage`, after whitespace trimming, has at most
`MaxLength` characters. -/
theorem C1_first_line_trimmed_fits (m : List Char) (cfg : CommitConfig)
    (hM : 0 < cfg.MaxLength) :
    ((trimSpace (firstLineOf (CleanCommitMessage m cfg))).length : Int) ≤
      cfg.MaxLength := by
  rcases hsp : splitNL (markerPhase m) with _ | ⟨l0, rest⟩
  · exact absurd hsp (splitNL_ne_nil _)
  obtain ⟨hd, hlen, _, _, hsplit, hbound⟩ := fixSubject_lines_shape (markerPhase m) cfg hsp
  have hout : CleanCommitMessage m cfg = fixSubject (markerPhase m) cfg := rfl
  rw [hout]
  unfold firstLineOf
  rw [hsplit]
  rcases hd with _ | ⟨x, hd'⟩
  · simp at hlen
  · simpa using hbound hM

/-- C1 witness: the amended bound evaluated at a concrete message and
configuration. -/
theorem C1_witness :
    (0 : Int) < 72 ∧
    ((trimSpace (firstLineOf (CleanCommitMessage ("fix: a").data
      (CommitConfig.mk 72)))).length : Int) ≤ 72 :=
  ⟨by decide, C1_first_line_trimmed_fits ("fix: a").data (CommitConfig.mk 72) (by decide)⟩

/-! ### Claim C10 -/

/-- C10: on marker-free input, the cleanup rewrites at most the first line
(into one or two lines) and passes every later line through verbatim and
in order. -/
theorem C10_later_lines_frame (m : List Char) (cfg : CommitConfig)
    (h : NoThinkMarkers m) :
    ∃ hd : List (List Char),
      (hd.length = 1 ∨ hd.length = 2) ∧
      splitNL (CleanCommitMessage m cfg) = hd ++ (splitNL (trimSpace m)).tail := by
  have hmp : markerPhase m = trimSpace m := markerPhase_of_no_markers h
  rcases hsp : splitNL (trimSpace m) with _ | ⟨l0, rest⟩
  · exact absurd hsp (splitNL_ne_nil _)
  obtain ⟨hd, hlen, _, _, hsplit, _⟩ :=
    fixSubject_lines_shape (trimSpace m) cfg hsp
  refine ⟨hd, hlen, ?_⟩
  have hout : CleanCommitMessage m cfg = fixSubject (trimSpace m) cfg := by
    unfold CleanCommitMessage
    rw [hmp]
  rw [hout, hsplit, List.tail_cons]

/-- C10 witness: the frame property evaluated at a concrete two-line
message. -/
theorem C10_witness :
    NoThinkMarkers ("feat: a\nbody line").data ∧
    ∃ hd : List (List Char),
      (hd.length = 1 ∨ hd.length = 2) ∧
      splitNL (CleanCommitMessage ("feat: a\nbody line").data (CommitConfig.mk 72)) =
        hd ++ (splitNL (trimSpace ("feat: a\nbody line").data)).tail :=
  ⟨⟨by decide, by decide⟩,
   C10_later_lines_frame ("feat: a\nbody line").data (CommitConfig.mk 72)
     ⟨by decide, by decide⟩⟩

/-! ### Claim C2 -/

/-- C2 counterexample: splitting `"aaaaaaaaaa bbbbbbbbbbb"` at the space
with `MaxLength = 20` yields `"aaaaaaaaaa…\n…bbbbbbbbbbb"`; concatenating
the two lines while ignoring the inserted ellipsis markers and the
inserted newline gives `"aaaaaaaaaabbbbbbbbbbb"`, which drops the boundary
space and so does not reproduce the original subject text exactly. -/
theorem C2_counterexample :
    containsSub openThink ("aaaaaaaaaa bbbbbbbbbbb").data = false ∧
    containsSub closeThink ("aaaaaaaaaa bbbbbbbbbbb").data = false ∧
    CleanCommitMessage ("aaaaaaaaaa bbbbbbbbbbb").data (CommitConfig.mk 20) =
      ("aaaaaaaaaa…\n…bbbbbbbbbbb").data ∧
    (CleanCommitMessage ("aaaaaaaaaa bbbbbbbbbbb").data (CommitConfig.mk 20)).filter
      (fun c => !(c == ell) && !(c == '\n')) = ("aaaaaaaaaabbbbbbbbbbb").data ∧
    ("aaaaaaaaaabbbbbbbbbbb").data ≠ ("aaaaaaaaaa bbbbbbbbbbb").data := by
  refine ⟨by decide, by decide, by decide, by decide, by decide⟩

/-- C2 (amended): on marker-free input the cleanup deletes no
non-whitespace characters — ignoring the inserted ellipsis markers and
line breaks, the sequence of content characters of the output equals that
of the input (the split may drop only whitespace at the split boundary). -/
theorem C2_content_preserved (m : List Char) (cfg : CommitConfig)
    (h : NoThinkMarkers m) :
    (CleanCommitMessage m cfg).filter isContentChar = m.filter isContentChar := by
  have hmp : markerPhase m = trimSpace m := markerPhase_of_no_markers h
  have hout : CleanCommitMessage m cfg = fixSubject (trimSpace m) cfg := by
    unfold CleanCommitMessage
    rw [hmp]
  rw [hout, fixSubject_filter,
    filter_trimSpace isContentChar (fun c hc => isContentChar_ws hc)]

/-- C2 witness: content preservation evaluated at a concrete message that
gets split. -/
theorem C2_witness :
    NoThinkMarkers ("aaaaaaaaaa bbbbbbbbbbb").data ∧
    (CleanCommitMessage ("aaaaaaaaaa bbbbbbbbbbb").data
        (CommitConfig.mk 20)).filter isContentChar =
      ("aaaaaaaaaa bbbbbbbbbbb").data.filter isContentChar :=
  ⟨⟨by decide, by decide⟩,
   C2_content_preserved ("aaaaaaaaaa bbbbbbbbbbb").data (CommitConfig.mk 20)
     ⟨by decide, by decide⟩⟩

/-! ### Diff triage lemmas -/

/-- The Go constant `(4096/2)/1.3` truncates to 1575 words. -/
theorem maxWords_floor : ⌊((4096 : ℚ) / 2) / (1.3 : ℚ)⌋ = (1575 : Int) := by
  norm_num

/-- Characterization of the triage test by the word count. -/
theorem isDiffTooLarge_word_iff (diff : List Char) :
    IsDiffTooLarge diff = true ↔ 1575 < (goFields diff).length := by
  simp only [IsDiffTooLarge, decide_eq_true_eq, maxWords_floor]
  exact_mod_cast Iff.rfl

/-- Dropping a whitespace head leaves the fields unchanged. -/
theorem goFields_cons_ws {c : Char} (h : goIsSpace c = true) (cs : List Char) :
    goFields (c :: cs) = goFields cs := by
  unfold goFields
  conv_lhs => unfold goFieldsAux
  rw [if_pos h, if_pos rfl]

/-- A one-character word before whitespace becomes its own field. -/
theorem goFields_cons_word {c d : Char} (hc : goIsSpace c = false)
    (hd : goIsSpace d = true) (cs : List Char) :
    goFields (c :: d :: cs) = [c] :: goFields (d :: cs) := by
  unfold goFields
  show goFieldsAux [] (c :: d :: cs) = [c] :: goFieldsAux [] (d :: cs)
  conv_lhs => unfold goFieldsAux
  rw [if_neg (by rw [hc]; simp)]
  conv_lhs => unfold goFieldsAux
  rw [if_pos hd, if_neg (by simp)]
  conv_rhs => unfold goFieldsAux
  rw [if_pos hd, if_pos rfl]
  rfl

/-- Word count of the concrete oversized diff pattern. -/
theorem goFields_replicate_aw :
    ∀ n : Nat, goFields ((List.replicate n ("a ").data).flatten) =
      List.replicate n ['a'] := by
  intro n
  induction n with
  | zero => rfl
  | succ k ih =>
    rw [List.replicate_succ, List.flatten_cons]
    show goFields ('a' :: ' ' :: (List.replicate k ("a ").data).flatten) =
      List.replicate (k + 1) ['a']
    rw [goFields_cons_word (by decide) (by decide),
      goFields_cons_ws (by decide), ih, List.replicate_succ]

/-! ### Claim C3 -/

/-- C3: the triage test flags a diff exactly when its whitespace-separated
word count exceeds 1575 = int((4096/2)/1.3), and the empty diff is never
oversized. -/
theorem C3_oversized_iff (diff : List Char) :
    (IsDiffTooLarge diff = true ↔ 1575 < (goFields diff).length) ∧
    IsDiffTooLarge [] = false := by
  refine ⟨isDiffTooLarge_word_iff diff, ?_⟩
  rw [← Bool.not_eq_true, isDiffTooLarge_word_iff]
  decide

/-- C3 witness: the characterization evaluated at concrete diffs on both
sides of the boundary. -/
theorem C3_witness :
    ((IsDiffTooLarge ("a b").data = true ↔ 1575 < (goFields ("a b").data).length) ∧
      IsDiffTooLarge [] = false) ∧
    IsDiffTooLarge ("a b").data = false ∧
    IsDiffTooLarge bigDiff = true := by
  refine ⟨C3_oversized_iff ("a b").data, ?_, ?_⟩
  · rw [← Bool.not_eq_true, isDiffTooLarge_word_iff]
    decide
  · rw [isDiffTooLarge_word_iff]
    unfold bigDiff
    rw [goFields_replicate_aw, List.length_replicate]
    omega

/-! ### Claim C4 -/

/-- C4: with a passing health check, a diff at or below 1575 words causes
exactly one generation call, built from the raw diff with the
commit-message prompt (`isSummary = false`); above the threshold, exactly
two calls are issued — the summarization request first, then the
commit-message request whose prompt embeds the stage-1 summary
(`isSummary = true`) in place of the raw diff. -/
theorem C4_backend_call_pattern (gen : GenerateRequest → Except (List Char) (List Char))
    (model : List Char) (cfg : CommitConfig) (diff readme : List Char) :
    ((goFields diff).length ≤ 1575 →
      (ollamaGenerateCommitMessage (.ok ()) gen model cfg diff readme).2 =
        [commitRequest model (BuildCommitPrompt diff readme false cfg)]) ∧
    (1575 < (goFields diff).length → ∀ fileSummaries,
      (ollamaGenerateFromRequest gen cfg (summarizeRequest model diff)).1 =
          .ok fileSummaries →
      (ollamaGenerateCommitMessage (.ok ()) gen model cfg diff readme).2 =
        [summarizeRequest model diff,
         commitRequest model (BuildCommitPrompt fileSummaries readme true cfg)]) := by
  constructor
  · intro hle
    have hsmall : IsDiffTooLarge diff = false := by
      rw [← Bool.not_eq_true, isDiffTooLarge_word_iff]
      omega
    unfold ollamaGenerateCommitMessage
    rw [hsmall]
    rfl
  · intro hgt fileSummaries hs
    have hlarge : IsDiffTooLarge diff = true := (isDiffTooLarge_word_iff diff).mpr hgt
    unfold ollamaGenerateCommitMessage
    rw [hlarge]
    simp only [if_true, hs]
    rfl

/-- C4 witness: the call pattern evaluated on a 2-word diff and on a
1576-word diff with a backend answering `"fix: y"`. -/
theorem C4_witness :
    ((goFields ("a b").data).length ≤ 1575 ∧
      (ollamaGenerateCommitMessage (.ok ()) (fun _ => .ok ("fix: y").data)
          ("m").data (CommitConfig.mk 72) ("a b").data []).2 =
        [commitRequest ("m").data
          (BuildCommitPrompt ("a b").data [] false (CommitConfig.mk 72))]) ∧
    (1575 < (goFields bigDiff).length ∧
      (ollamaGenerateCommitMessage (.ok ()) (fun _ => .ok ("fix: y").data)
          ("m").data (CommitConfig.mk 72) bigDiff []).2 =
        [summarizeRequest ("m").data bigDiff,
         commitRequest ("m").data
           (BuildCommitPrompt ("fix: y").data [] true (CommitConfig.mk 72))]) := by
  have hbig : 1575 < (goFields bigDiff).length := by
    unfold bigDiff
    rw [goFields_replicate_aw, List.length_replicate]
    omega
  refine ⟨⟨by decide, ?_⟩, ⟨hbig, ?_⟩⟩
  · exact (C4_backend_call_pattern (fun _ => .ok ("fix: y").data) ("m").data
      (CommitConfig.mk 72) ("a b").data []).1 (by decide)
  · exact (C4_backend_call_pattern (fun _ => .ok ("fix: y").data) ("m").data
      (CommitConfig.mk 72) bigDiff []).2 hbig ("fix: y").data (by rfl)

/-! ### Claim C7 -/

/-- C7 counterexample: all-whitespace raw output trims to empty and takes
the blank-response branch, whose error carries no raw text — not the
empty-after-cleaning error that would carry it. -/
theorem C7_counterexample :
    processResponse ("   ").data (CommitConfig.mk 72) = .error GenError.emptyResponse ∧
    GenError.emptyResponse ≠ GenError.emptyAfterCleaning ("   ").data := by
  exact ⟨by rfl, by decide⟩

/-- C7 (amended): blank raw output yields the plain empty-response error
without the raw text; raw output whose trimmed form is nonempty but cleans
to empty yields the error carrying the trimmed (pre-cleaning) text;
otherwise the cleaned message is returned. -/
theorem C7_empty_response_errors (raw : List Char) (cfg : CommitConfig) :
    (trimSpace raw = [] → processResponse raw cfg = .error GenError.emptyResponse) ∧
    (trimSpace raw ≠ [] → CleanCommitMessage (trimSpace raw) cfg = [] →
      processResponse raw cfg = .error (GenError.emptyAfterCleaning (trimSpace raw))) ∧
    (trimSpace raw ≠ [] → CleanCommitMessage (trimSpace raw) cfg ≠ [] →
      processResponse raw cfg = .ok (CleanCommitMessage (trimSpace raw) cfg)) := by
  unfold processResponse
  refine ⟨fun h1 => ?_, fun h1 h2 => ?_, fun h1 h2 => ?_⟩
  · rw [if_pos h1]
  · rw [if_neg h1, if_pos h2]
  · rw [if_neg h1, if_neg h2]

/-- C7 witness: the three branches evaluated at concrete raw outputs. -/
theorem C7_witness :
    (trimSpace ("   ").data = [] ∧
      processResponse ("   ").data (CommitConfig.mk 72) =
        .error GenError.emptyResponse) ∧
    (trimSpace ("<think>").data ≠ [] ∧
      CleanCommitMessage (trimSpace ("<think>").data) (CommitConfig.mk 72) = [] ∧
      processResponse ("<think>").data (CommitConfig.mk 72) =
        .error (GenError.emptyAfterCleaning (trimSpace ("<think>").data))) ∧
    (trimSpace ("  fix: a  ").data ≠ [] ∧
      CleanCommitMessage (trimSpace ("  fix: a  ").data) (CommitConfig.mk 72) ≠ [] ∧
      processResponse ("  fix: a  ").data (CommitConfig.mk 72) =
        .ok (CleanCommitMessage (trimSpace ("  fix: a  ").data) (CommitConfig.mk 72))) := by
  refine ⟨⟨by decide, ?_⟩, ⟨by decide, by decide, ?_⟩, ⟨by decide, by decide, ?_⟩⟩
  · exact (C7_empty_response_errors ("   ").data (CommitConfig.mk 72)).1 (by decide)
  · exact (C7_empty_response_errors ("<think>").data (CommitConfig.mk 72)).2.1
      (by decide) (by decide)
  · exact (C7_empty_response_errors ("  fix: a  ").data (CommitConfig.mk 72)).2.2
      (by decide) (by decide)

/-! ### Claim C8 -/

/-- C8 counterexample: against an unreachable backend the OpenAI
provider's health check fails, yet its `GenerateCommitMessage` still
issues a generation request (and returns the network error, not the
health-check error) — it never performs the health check. -/
theorem C8_counterexample :
    openaiHealthCheck (fun _ => .error ("connection refused").data)
        ("http://x").data ("m").data =
      .error (("cannot connect to OpenAI API at ").data ++ ("http://x").data ++
        (" - check your network connection and base_url").data) ∧
    (openaiGenerateCommitMessage (fun _ => .error ("connection refused").data)
        ("m").data (CommitConfig.mk 72) ("d").data []).2.length = 1 ∧
    (openaiGenerateCommitMessage (fun _ => .error ("connection refused").data)
        ("m").data (CommitConfig.mk 72) ("d").data []).1 =
      .error (GenError.network ("connection refused").data) := by
  have hsmall : IsDiffTooLarge ("d").data = false := by
    rw [← Bool.not_eq_true, isDiffTooLarge_word_iff]
    decide
  refine ⟨by rfl, ?_, ?_⟩
  · unfold openaiGenerateCommitMessage
    rw [hsmall]
    rfl
  · unfold openaiGenerateCommitMessage
    rw [hsmall]
    rfl

/-- C8 (amended): the Ollama provider checks health first and returns the
health-check error with no generation request on failure; the OpenAI
provider issues generation requests without any health check. -/
theorem C8_health_check_gate :
    (∀ (e : List Char) (gen : GenerateRequest → Except (List Char) (List Char))
        (model : List Char) (cfg : CommitConfig) (diff readme : List Char),
      ollamaGenerateCommitMessage (.error e) gen model cfg diff readme =
        (.error (.healthFailed e), [])) ∧
    (∀ (makeRequest : ChatCompletionRequest → Except (List Char) (List (List Char)))
        (model : List Char) (cfg : CommitConfig) (diff readme : List Char),
      1 ≤ (openaiGenerateCommitMessage makeRequest model cfg diff readme).2.length) := by
  constructor
  · intro e gen model cfg diff readme
    rfl
  · intro makeRequest model cfg diff readme
    unfold openaiGenerateCommitMessage
    by_cases h : IsDiffTooLarge diff = true
    · rw [if_pos h]
      rcases hs : (openaiGenerateFromRequest makeRequest cfg
          (openaiSummarizeRequest model diff)).1 with e | ok
      · simp only [hs]
        unfold openaiGenerateFromRequest
        simp
      · simp only [hs]
        unfold openaiGenerateFromRequest
        simp
    · rw [if_neg h]
      unfold openaiGenerateFromRequest
      simp

/-- C8 witness: both halves evaluated at concrete providers and inputs. -/
theorem C8_witness :
    ollamaGenerateCommitMessage (.error ("down").data)
        (fun _ => .ok ("fix: y").data) ("m").data (CommitConfig.mk 72)
        ("a b").data [] = (.error (.healthFailed ("down").data), []) ∧
    1 ≤ (openaiGenerateCommitMessage (fun _ => .ok [("fix: y").data])
        ("m").data (CommitConfig.mk 72) ("a b").data []).2.length :=
  ⟨C8_health_check_gate.1 ("down").data (fun _ => .ok ("fix: y").data)
      ("m").data (CommitConfig.mk 72) ("a b").data [],
   C8_health_check_gate.2 (fun _ => .ok [("fix: y").data])
      ("m").data (CommitConfig.mk 72) ("a b").data []⟩

/-! ### Claim C9 -/

/-- C9 counterexample: when the content itself contains the literal
`"STAGED DIFF:"`, the prompt built with `isSummary = true` contains that
header as well, so the headers do not appear "exactly when" the flag
selects them. -/
theorem C9_counterexample :
    containsSub ("STAGED DIFF:").data
      (BuildCommitPrompt ("STAGED DIFF:").data [] true (CommitConfig.mk 72)) = true := by
  rw [containsSub_iff]
  refine ⟨commitPromptRules1.data ++ goIntString (CommitConfig.mk 72).MaxLength ++
    commitPromptRules2.data ++ ("FILE CHANGES SUMMARIZED:\n").data, [], ?_⟩
  unfold BuildCommitPrompt
  simp [List.append_assoc]

/-- C9 (amended): the prompt always contains the section header selected
by `isSummary`, and a nonempty README is embedded as a project-context
section holding the README itself when it has at most 20 lines, and its
first 20 lines followed by the truncation marker otherwise. (The "exactly
when" direction fails: a content or README that itself contains the other
header string places it in the prompt.) -/
theorem C9_prompt_sections (content readme : List Char) (isFileSummary : Bool)
    (cfg : CommitConfig) :
    containsSub
      (if isFileSummary then ("FILE CHANGES SUMMARIZED:").data
        else ("STAGED DIFF:").data)
      (BuildCommitPrompt content readme isFileSummary cfg) = true ∧
    (readme ≠ [] → ∃ pre post,
      BuildCommitPrompt content readme isFileSummary cfg =
        pre ++ ("PROJECT README:\n").data ++ truncatedReadme readme ++
          ("\n\n").data ++ post ∧
      ((splitNL readme).length ≤ 20 → truncatedReadme readme = readme) ∧
      (20 < (splitNL readme).length →
        truncatedReadme readme =
          joinNL ((splitNL readme).take 20) ++ ("\n... (truncated)").data)) := by
  constructor
  · rw [containsSub_iff]
    cases isFileSummary
    · refine ⟨commitPromptRules1.data ++ goIntString cfg.MaxLength ++
        commitPromptRules2.data ++
        (if readme = [] then []
          else ("PROJECT README:\n").data ++ truncatedReadme readme ++ ("\n\n").data),
        '\n' :: content, ?_⟩
      unfold BuildCommitPrompt
      simp only [Bool.false_eq_true, if_false]
      simp [List.append_assoc]
    · refine ⟨commitPromptRules1.data ++ goIntString cfg.MaxLength ++
        commitPromptRules2.data ++
        (if readme = [] then []
          else ("PROJECT README:\n").data ++ truncatedReadme readme ++ ("\n\n").data),
        '\n' :: content, ?_⟩
      unfold BuildCommitPrompt
      simp only [eq_self_iff_true, if_true]
      simp [List.append_assoc]
  · intro hr
    refine ⟨commitPromptRules1.data ++ goIntString cfg.MaxLength ++
      commitPromptRules2.data,
      (if isFileSummary then ("FILE CHANGES SUMMARIZED:\n").data
        else ("STAGED DIFF:\n").data) ++ content, ?_, ?_, ?_⟩
    · unfold BuildCommitPrompt
      rw [if_neg hr]
      simp [List.append_assoc]
    · intro h20
      unfold truncatedReadme
      rw [if_neg (by omega)]
    · intro h20
      unfold truncatedReadme
      rw [if_pos h20]

/-- C9 witness: the section properties evaluated at a concrete prompt with
a one-line README. -/
theorem C9_witness :
    containsSub ("FILE CHANGES SUMMARIZED:").data
      (BuildCommitPrompt ("d").data ("r").data true (CommitConfig.mk 72)) = true ∧
    (∃ pre post,
      BuildCommitPrompt ("d").data ("r").data true (CommitConfig.mk 72) =
        pre ++ ("PROJECT README:\n").data ++ truncatedReadme ("r").data ++
          ("\n\n").data ++ post ∧
      ((splitNL ("r").data).length ≤ 20 → truncatedReadme ("r").data = ("r").data) ∧
      (20 < (splitNL ("r").data).length →
        truncatedReadme ("r").data =
          joinNL ((splitNL ("r").data).take 20) ++ ("\n... (truncated)").data)) :=
  ⟨(C9_prompt_sections ("d").data ("r").data true (CommitConfig.mk 72)).1,
   (C9_prompt_sections ("d").data ("r").data true (CommitConfig.mk 72)).2
     (by decide)⟩

/-! ### Occurrence propagation lemmas -/

/-- A nonempty pattern never occurs in the empty string. -/
theorem containsSub_nil {pat : List Char} (h : pat ≠ []) :
    containsSub pat [] = false := by
  unfold containsSub idxOfSub
  rw [if_neg h]
  rfl

/-- An occurrence survives appending on the right. -/
theorem containsSub_append_left {pat a : List Char} (z : List Char)
    (h : containsSub pat a = true) : containsSub pat (a ++ z) = true := by
  rcases (containsSub_iff pat a).mp h with ⟨u, v, rfl⟩
  rw [containsSub_iff]
  exact ⟨u, v ++ z, by simp⟩

/-- An occurrence survives appending on the left. -/
theorem containsSub_append_right {pat b : List Char} (a : List Char)
    (h : containsSub pat b = true) : containsSub pat (a ++ b) = true := by
  rcases (containsSub_iff pat b).mp h with ⟨u, v, rfl⟩
  rw [containsSub_iff]
  exact ⟨a ++ u, v, by simp⟩

/-- A prefix relation through an appended tail: either the shorter list is
exhausted inside the longer one, or it runs past the marked character. -/
theorem prefix_through_append :
    ∀ (ps t a : List Char) (c : Char) (b : List Char),
      ps ++ t = a ++ c :: b → (∃ u, a = ps ++ u) ∨ c ∈ ps := by
  intro ps
  induction ps with
  | nil => intro t a c b _; exact Or.inl ⟨a, rfl⟩
  | cons q qs ih =>
    intro t a c b h
    cases a with
    | nil =>
      rw [List.nil_append] at h
      rw [List.cons_append] at h
      cases h
      exact Or.inr (List.mem_cons_self _ _)
    | cons y a' =>
      rw [List.cons_append, List.cons_append] at h
      injection h with h1 h2
      subst h1
      rcases ih t a' c b h2 with ⟨u, hu⟩ | hc
      · exact Or.inl ⟨u, by rw [hu]; rfl⟩
      · exact Or.inr (List.mem_cons_of_mem _ hc)

/-- An occurrence across a marked character the pattern cannot contain
must lie entirely on one side of it. -/
theorem containsSub_append_cons_split {pat : List Char} {c : Char}
    (hc : c ∉ pat) :
    ∀ (a b : List Char), containsSub pat (a ++ c :: b) = true →
      containsSub pat a = true ∨ containsSub pat b = true := by
  intro a
  induction a with
  | nil =>
    intro b h
    rcases (containsSub_iff pat _).mp h with ⟨u, v, huv⟩
    rw [List.nil_append] at huv
    cases u with
    | nil =>
      rw [List.nil_append] at huv
      cases pat with
      | nil => exact Or.inl (by unfold containsSub idxOfSub; simp)
      | cons p ps =>
        rw [List.cons_append] at huv
        injection huv with h1 _
        exact absurd (h1 ▸ List.mem_cons_self _ _) hc
    | cons x u' =>
      rw [List.cons_append] at huv
      injection huv with _ h2
      exact Or.inr ((containsSub_iff pat b).mpr ⟨u', v, h2⟩)
  | cons y a' ih =>
    intro b h
    rcases (containsSub_iff pat _).mp h with ⟨u, v, huv⟩
    cases u with
    | nil =>
      rw [List.nil_append] at huv
      cases pat with
      | nil => exact Or.inl (by unfold containsSub idxOfSub; simp [startsWith])
      | cons p ps =>
        rw [List.cons_append, List.cons_append] at huv
        injection huv with h1 h2
        subst h1
        rcases prefix_through_append ps v a' c b h2.symm with ⟨w, hw⟩ | hmem
        · refine Or.inl ((containsSub_iff _ _).mpr ⟨[], w, ?_⟩)
          rw [hw]
          rfl
        · exact absurd (List.mem_cons_of_mem _ hmem) hc
    | cons x u' =>
      rw [List.cons_append, List.cons_append] at huv
      injection huv with h1 h2
      subst h1
      rcases ih b ((containsSub_iff pat _).mpr ⟨u', v, h2⟩) with hl | hr
      · exact Or.inl (containsSub_cons y hl)
      · exact Or.inr hr

/-- An occurrence of a newline-free pattern in joined lines lies within a
single line. -/
theorem containsSub_joinNL {pat : List Char} (hnl : '\n' ∉ pat) (hne : pat ≠ []) :
    ∀ parts : List (List Char), containsSub pat (joinNL parts) = true →
      ∃ p ∈ parts, containsSub pat p = true := by
  intro parts
  induction parts with
  | nil =>
    intro h
    rw [show joinNL [] = [] from rfl, containsSub_nil hne] at h
    cases h
  | cons p ps ih =>
    intro h
    cases ps with
    | nil => exact ⟨p, List.mem_cons_self _ _, h⟩
    | cons q ps' =>
      rw [show joinNL (p :: q :: ps') = p ++ '\n' :: joinNL (q :: ps') from rfl] at h
      rcases containsSub_append_cons_split hnl p _ h with hp | hj
      · exact ⟨p, List.mem_cons_self _ _, hp⟩
      · rcases ih hj with ⟨r, hr, hcr⟩
        exact ⟨r, List.mem_cons_of_mem _ hr, hcr⟩

/-- An occurrence inside one joined line occurs in the joined message. -/
theorem containsSub_joinNL_of_mem {pat p : List Char} :
    ∀ parts : List (List Char), p ∈ parts → containsSub pat p = true →
      containsSub pat (joinNL parts) = true := by
  intro parts
  induction parts with
  | nil => intro h; cases h
  | cons x ps ih =>
    intro hmem hc
    rcases List.mem_cons.mp hmem with rfl | hmem
    · cases ps with
      | nil => exact hc
      | cons q ps' =>
        rw [show joinNL (p :: q :: ps') = p ++ '\n' :: joinNL (q :: ps') from rfl]
        exact containsSub_append_left _ hc
    · cases ps with
      | nil => cases hmem
      | cons q ps' =>
        rw [show joinNL (x :: q :: ps') = x ++ '\n' :: joinNL (q :: ps') from rfl]
        have := ih hmem hc
        exact containsSub_append_right x (by
          rw [show ('\n' :: joinNL (q :: ps') : List Char) =
            ['\n'] ++ joinNL (q :: ps') from rfl]
          exact containsSub_append_right _ this)

/-- An occurrence in a prefix slice occurs in the whole. -/
theorem containsSub_take {pat l : List Char} (n : Nat)
    (h : containsSub pat (l.take n) = true) : containsSub pat l = true := by
  have := containsSub_append_left (l.drop n) h
  rwa [List.take_append_drop] at this

/-- An occurrence in a suffix slice occurs in the whole. -/
theorem containsSub_drop {pat l : List Char} (n : Nat)
    (h : containsSub pat (l.drop n) = true) : containsSub pat l = true := by
  have := containsSub_append_right (l.take n) h
  rwa [List.take_append_drop] at this

/-- Marker-freeness is preserved by trimming. -/
theorem noThinkMarkers_trimSpace {m : List Char} (h : NoThinkMarkers m) :
    NoThinkMarkers (trimSpace m) := by
  obtain ⟨ho, hc⟩ := h
  constructor
  · by_contra hx
    rw [← ne_eq, Bool.ne_false_iff] at hx
    rw [containsSub_trimSpace hx] at ho
    cases ho
  · by_contra hx
    rw [← ne_eq, Bool.ne_false_iff] at hx
    rw [containsSub_trimSpace hx] at hc
    cases hc

/-- The subject split introduces no new occurrence of a nonempty,
newline-free, ellipsis-free pattern. -/
theorem fixSubject_no_new_markers (cleaned : List Char) (cfg : CommitConfig)
    {pat : List Char} (hnl : '\n' ∉ pat) (hne : pat ≠ []) (hell : ell ∉ pat)
    (hclean : containsSub pat cleaned = false) :
    containsSub pat (fixSubject cleaned cfg) = false := by
  by_contra hx
  rw [← ne_eq, Bool.ne_false_iff] at hx
  rcases hsp : splitNL cleaned with _ | ⟨l0, rest⟩
  · exact absurd hsp (splitNL_ne_nil cleaned)
  have horig : ∀ p ∈ l0 :: rest, containsSub pat p = true →
      containsSub pat cleaned = true := by
    intro p hp hcp
    have := containsSub_joinNL_of_mem (l0 :: rest) hp hcp
    rwa [← hsp, joinNL_splitNL] at this
  have hs : ∀ k : Nat, containsSub pat ((trimSpace l0).take k) = true →
      containsSub pat cleaned = true := by
    intro k hk
    exact horig l0 (List.mem_cons_self _ _)
      (containsSub_trimSpace (containsSub_take k hk))
  have hsd : ∀ k : Nat, containsSub pat ((trimSpace l0).drop k) = true →
      containsSub pat cleaned = true := by
    intro k hk
    exact horig l0 (List.mem_cons_self _ _)
      (containsSub_trimSpace (containsSub_drop k hk))
  have hhead : ∀ k : Nat, containsSub pat ((trimSpace l0).take k ++ [ell]) = true →
      containsSub pat cleaned = true := by
    intro k hk
    rcases containsSub_append_cons_split hell _ _ hk with h1 | h1
    · exact hs k h1
    · rw [containsSub_nil hne] at h1
      cases h1
  have hmid : ∀ r : List Char,
      (containsSub pat r = true → containsSub pat cleaned = true) →
      containsSub pat (ell :: r) = true → containsSub pat cleaned = true := by
    intro r hr hk
    rcases containsSub_append_cons_split hell [] r hk with h1 | h1
    · rw [containsSub_nil hne] at h1
      cases h1
    · exact hr h1
  rcases fixSubject_eq_cases cleaned cfg hsp with ⟨_, heq⟩ |
    ⟨_, ⟨_, ⟨_, heq⟩ | ⟨_, heq⟩⟩ | ⟨_, ⟨_, heq⟩ | ⟨_, heq⟩⟩⟩
  all_goals rw [heq] at hx
  · rw [← hsp, joinNL_splitNL, hclean] at hx
    cases hx
  · rcases containsSub_joinNL hnl hne _ hx with ⟨p, hp, hcp⟩
    rcases List.mem_cons.mp hp with rfl | hp
    · rw [hhead _ hcp] at hclean
      cases hclean
    · rw [horig p (List.mem_cons_of_mem _ hp) hcp] at hclean
      cases hclean
  · rcases containsSub_joinNL hnl hne _ hx with ⟨p, hp, hcp⟩
    rcases List.mem_cons.mp hp with rfl | hp
    · rw [hhead _ hcp] at hclean
      cases hclean
    rcases List.mem_cons.mp hp with rfl | hp
    · rw [hmid _ (fun hr => hsd _ (containsSub_trimSpace hr)) hcp] at hclean
      cases hclean
    · rw [horig p (List.mem_cons_of_mem _ hp) hcp] at hclean
      cases hclean
  · rcases containsSub_joinNL hnl hne _ hx with ⟨p, hp, hcp⟩
    rcases List.mem_cons.mp hp with rfl | hp
    · rw [hhead _ hcp] at hclean
      cases hclean
    · rw [horig p (List.mem_cons_of_mem _ hp) hcp] at hclean
      cases hclean
  · rcases containsSub_joinNL hnl hne _ hx with ⟨p, hp, hcp⟩
    rcases List.mem_cons.mp hp with rfl | hp
    · rw [hhead _ hcp] at hclean
      cases hclean
    rcases List.mem_cons.mp hp with rfl | hp
    · rw [hmid _ (hsd _) hcp] at hclean
      cases hclean
    · rw [horig p (List.mem_cons_of_mem _ hp) hcp] at hclean
      cases hclean

/-- Taking a positive prefix preserves the head. -/
theorem head?_take {l : List Char} {n : Nat} (hn : 0 < n) :
    (l.take n).head? = l.head? := by
  cases l with
  | nil => simp
  | cons c cs =>
    cases n with
    | zero => omega
    | succ k => simp

/-- When the original message has further lines, the joined split result
ends with the last character of the original (whitespace-free) border. -/
theorem getLast_from_rest {t l0 : List Char} {rest : List (List Char)}
    (hsp : splitNL t = l0 :: rest) (htnb : NoBorderWs t) (_hl0ne : l0 ≠ [])
    (hrest : rest ≠ []) (hd : List (List Char)) :
    ∀ c, (joinNL (hd ++ rest)).getLast? = some c → goIsSpace c = false := by
  intro c hc
  rcases hq : rest with _ | ⟨q0, qs0⟩
  · exact absurd hq hrest
  subst hq
  rcases hp : (q0 :: qs0).getLast? with _ | p
  · rw [List.getLast?_eq_none_iff] at hp
    cases hp
  have htj : t = joinNL (l0 :: q0 :: qs0) := by
    conv_lhs => rw [← joinNL_splitNL t, hsp]
  by_cases hpn : p = []
  · subst hpn
    have hnl := joinNL_getLast?_of_nil (l0 :: q0 :: qs0)
      (by rw [List.getLast?_cons_cons]; exact hp) (by simp)
    rw [← htj] at hnl
    have hws := htnb.2 '\n' hnl
    exact absurd hws (by decide)
  · have h1 : (joinNL (hd ++ q0 :: qs0)).getLast? = p.getLast? :=
      joinNL_getLast?_of_ne_nil _ p
        (by rw [List.getLast?_append_of_ne_nil _ (by simp)]; exact hp) hpn
    have h2 : t.getLast? = p.getLast? := by
      rw [htj]
      exact joinNL_getLast?_of_ne_nil _ p
        (by rw [List.getLast?_cons_cons]; exact hp) hpn
    rw [h1] at hc
    rw [hc] at h2
    exact htnb.2 c h2

/-- On trimmed input the subject split returns a trimmed message. -/
theorem fixSubject_trimmed (t : List Char) (cfg : CommitConfig)
    (ht : trimSpace t = t) : trimSpace (fixSubject t cfg) = fixSubject t cfg := by
  rcases hsp : splitNL t with _ | ⟨l0, rest⟩
  · exact absurd hsp (splitNL_ne_nil t)
  have htnb : NoBorderWs t := by
    have := trimSpace_noBorderWs t
    rwa [ht] at this
  rcases fixSubject_eq_cases t cfg hsp with ⟨_, heq⟩ | ⟨⟨hM, hlt⟩, hcase⟩
  · rw [heq, ← hsp, joinNL_splitNL, ht]
  · have hsnb : NoBorderWs (trimSpace l0) := trimSpace_noBorderWs l0
    have hellws : goIsSpace ell = false := by decide
    have hsne : trimSpace l0 ≠ [] := by
      intro h0
      rw [h0] at hlt
      simp at hlt
      omega
    have hl0ne : l0 ≠ [] := by
      intro h0
      rw [h0] at hsne
      exact hsne rfl
    have hheadok : ∀ (k : Nat) (c : Char),
        ((trimSpace l0).take k ++ [ell]).head? = some c → goIsSpace c = false := by
      intro k c hck
      cases k with
      | zero =>
        simp at hck
        subst hck
        exact hellws
      | succ k' =>
        rw [List.head?_append_of_ne_nil _
          (by simp [List.take_eq_nil_iff, hsne]), head?_take (by omega)] at hck
        exact hsnb.1 c hck
    have hheadne : ∀ k : Nat, (trimSpace l0).take k ++ [ell] ≠ [] := by simp
    rcases hcase with ⟨hsi, ⟨hrem, heq⟩ | ⟨hrem, heq⟩⟩ | ⟨hsi, ⟨hrem, heq⟩ | ⟨hrem, heq⟩⟩
    · -- word split, all-whitespace remainder dropped
      rw [heq]
      apply trimSpace_eq_self
      constructor
      · intro c hch
        rw [joinNL_head?_of_ne_nil _ _ (hheadne _)] at hch
        exact hheadok _ c hch
      · intro c hcl
        rcases rest with _ | ⟨q0, qs0⟩
        · rw [show joinNL [(trimSpace l0).take (goLastIndexSpace ((trimSpace l0).take
              (cfg.MaxLength - 1).toNat)).toNat ++ [ell]] =
            (trimSpace l0).take (goLastIndexSpace ((trimSpace l0).take
              (cfg.MaxLength - 1).toNat)).toNat ++ [ell] from rfl,
            List.getLast?_concat] at hcl
          cases hcl
          exact hellws
        · exact getLast_from_rest hsp htnb hl0ne (by simp)
            [(trimSpace l0).take (goLastIndexSpace ((trimSpace l0).take
              (cfg.MaxLength - 1).toNat)).toNat ++ [ell]] c hcl
    · -- word split with carried remainder
      rw [heq]
      apply trimSpace_eq_self
      constructor
      · intro c hch
        rw [joinNL_head?_of_ne_nil _ _ (hheadne _)] at hch
        exact hheadok _ c hch
      · intro c hcl
        rcases rest with _ | ⟨q0, qs0⟩
        · rcases hrm : trimSpace ((trimSpace l0).drop (goLastIndexSpace ((trimSpace l0).take
              (cfg.MaxLength - 1).toNat)).toNat) with _ | ⟨r0, rr⟩
          · exact absurd hrm hrem
          have hnb2 : NoBorderWs (r0 :: rr) := by
            rw [← hrm]
            exact trimSpace_noBorderWs _
          have hjl : (joinNL [(trimSpace l0).take (goLastIndexSpace ((trimSpace l0).take
              (cfg.MaxLength - 1).toNat)).toNat ++ [ell],
              ell :: trimSpace ((trimSpace l0).drop (goLastIndexSpace ((trimSpace l0).take
                (cfg.MaxLength - 1).toNat)).toNat)]).getLast? =
              (ell :: (r0 :: rr)).getLast? := by
            rw [hrm]
            exact joinNL_getLast?_of_ne_nil _ _ (by simp) (by simp)
          rw [hjl, List.getLast?_cons_cons] at hcl
          exact hnb2.2 c hcl
        · exact getLast_from_rest hsp htnb hl0ne (by simp)
            [(trimSpace l0).take (goLastIndexSpace ((trimSpace l0).take
              (cfg.MaxLength - 1).toNat)).toNat ++ [ell],
             ell :: trimSpace ((trimSpace l0).drop (goLastIndexSpace ((trimSpace l0).take
               (cfg.MaxLength - 1).toNat)).toNat)] c hcl
    · -- character split, empty remainder
      rw [heq]
      apply trimSpace_eq_self
      constructor
      · intro c hch
        rw [joinNL_head?_of_ne_nil _ _ (hheadne _)] at hch
        exact hheadok _ c hch
      · intro c hcl
        rcases rest with _ | ⟨q0, qs0⟩
        · rw [show joinNL [(trimSpace l0).take (cfg.MaxLength - 1).toNat ++ [ell]] =
            (trimSpace l0).take (cfg.MaxLength - 1).toNat ++ [ell] from rfl,
            List.getLast?_concat] at hcl
          cases hcl
          exact hellws
        · exact getLast_from_rest hsp htnb hl0ne (by simp)
            [(trimSpace l0).take (cfg.MaxLength - 1).toNat ++ [ell]] c hcl
    · -- character split with carried remainder
      rw [heq]
      apply trimSpace_eq_self
      constructor
      · intro c hch
        rw [joinNL_head?_of_ne_nil _ _ (hheadne _)] at hch
        exact hheadok _ c hch
      · intro c hcl
        rcases rest with _ | ⟨q0, qs0⟩
        · rcases hrm : (trimSpace l0).drop (cfg.MaxLength - 1).toNat with _ | ⟨r0, rr⟩
          · exact absurd hrm hrem
          have hlastd : (r0 :: rr).getLast? = (trimSpace l0).getLast? := by
            rw [← hrm]
            conv_rhs => rw [← List.take_append_drop (cfg.MaxLength - 1).toNat (trimSpace l0)]
            rw [List.getLast?_append_of_ne_nil _ (by rw [hrm]; simp)]
          have hjl : (joinNL [(trimSpace l0).take (cfg.MaxLength - 1).toNat ++ [ell],
              ell :: (trimSpace l0).drop (cfg.MaxLength - 1).toNat]).getLast? =
              (ell :: (r0 :: rr)).getLast? := by
            rw [hrm]
            exact joinNL_getLast?_of_ne_nil _ _ (by simp) (by simp)
          rw [hjl, List.getLast?_cons_cons, hlastd] at hcl
          exact hsnb.2 c hcl
        · exact getLast_from_rest hsp htnb hl0ne (by simp)
            [(trimSpace l0).take (cfg.MaxLength - 1).toNat ++ [ell],
             ell :: (trimSpace l0).drop (cfg.MaxLength - 1).toNat] c hcl

/-- A message whose trimmed first line already fits passes through the
subject split unchanged. -/
theorem fixSubject_eq_self_of_fits (x : List Char) (cfg : CommitConfig)
    (hfit : 0 < cfg.MaxLength →
      ((trimSpace ((splitNL x).headI)).length : Int) ≤ cfg.MaxLength) :
    fixSubject x cfg = x := by
  rcases hsp : splitNL x with _ | ⟨l0, rest⟩
  · exact absurd hsp (splitNL_ne_nil x)
  rcases fixSubject_eq_cases x cfg hsp with ⟨_, heq⟩ | ⟨⟨hM, hlt⟩, _⟩
  · rw [heq, ← hsp, joinNL_splitNL]
  · exfalso
    have := hfit hM
    rw [hsp] at this
    simp only [List.headI] at this
    omega

/-! ### Claim C5 -/

/-- Under the character-counting semantics the splitter's source comment
intends — one reserved character for the inserted ellipsis — the cleaner
is idempotent on marker-free input.  The actual binary is not: see
`C5_bytes_not_idempotent`. -/
theorem cleanCommitMessage_idempotent_char_model (m : List Char)
    (cfg : CommitConfig) (h : NoThinkMarkers m) :
    CleanCommitMessage (CleanCommitMessage m cfg) cfg = CleanCommitMessage m cfg := by
  have h1 : CleanCommitMessage m cfg = fixSubject (trimSpace m) cfg := by
    unfold CleanCommitMessage
    rw [markerPhase_of_no_markers h]
  have htm : NoThinkMarkers (trimSpace m) := noThinkMarkers_trimSpace h
  have hout : NoThinkMarkers (fixSubject (trimSpace m) cfg) :=
    ⟨fixSubject_no_new_markers _ cfg (by decide) (by decide) (by decide) htm.1,
     fixSubject_no_new_markers _ cfg (by decide) (by decide) (by decide) htm.2⟩
  have htrim : trimSpace (fixSubject (trimSpace m) cfg) = fixSubject (trimSpace m) cfg :=
    fixSubject_trimmed (trimSpace m) cfg (trimSpace_trimSpace m)
  have h2 : CleanCommitMessage (fixSubject (trimSpace m) cfg) cfg =
      fixSubject (fixSubject (trimSpace m) cfg) cfg := by
    unfold CleanCommitMessage
    rw [markerPhase_of_no_markers hout, htrim]
  have h3 : fixSubject (fixSubject (trimSpace m) cfg) cfg =
      fixSubject (trimSpace m) cfg := by
    rcases hsp : splitNL (trimSpace m) with _ | ⟨l0, rest⟩
    · exact absurd hsp (splitNL_ne_nil _)
    obtain ⟨hd, hlen, _, _, hsplit, hbound⟩ :=
      fixSubject_lines_shape (trimSpace m) cfg hsp
    apply fixSubject_eq_self_of_fits
    intro hM
    rw [hsplit]
    rcases hd with _ | ⟨x, hd'⟩
    · simp at hlen
    · simpa using hbound hM
  rw [h1, h2, h3]

/-- C5: the program is not idempotent.  At `MaxLength = 20` on the
marker-free 21-byte ASCII message `"aaaaaaaaaabbbbbbbbbbb"` (no space
before the limit), the first pass emits the first line
`subject[:19] + "…"` — 22 bytes, since Go's `len` counts the inserted
ellipsis as three bytes although the splitter reserved one character for
it — so the second pass sees a too-long subject, splits again, and
inserts an extra `"……"` line: `Clean(Clean(x)) ≠ Clean(x)`. -/
theorem C5_bytes_not_idempotent :
    NoThinkMarkers ("aaaaaaaaaabbbbbbbbbbb").data ∧
    CleanCommitMessageBytes ("aaaaaaaaaabbbbbbbbbbb").data (CommitConfig.mk 20) =
      ("aaaaaaaaaabbbbbbbbb").data ++ ellBytes ++
        '\n' :: (ellBytes ++ ("bb").data) ∧
    CleanCommitMessageBytes
        (CleanCommitMessageBytes ("aaaaaaaaaabbbbbbbbbbb").data (CommitConfig.mk 20))
        (CommitConfig.mk 20) =
      ("aaaaaaaaaabbbbbbbbb").data ++ ellBytes ++
        '\n' :: (ellBytes ++ ellBytes) ++ '\n' :: (ellBytes ++ ("bb").data) ∧
    CleanCommitMessageBytes
        (CleanCommitMessageBytes ("aaaaaaaaaabbbbbbbbbbb").data (CommitConfig.mk 20))
        (CommitConfig.mk 20) ≠
      CleanCommitMessageBytes ("aaaaaaaaaabbbbbbbbbbb").data (CommitConfig.mk 20) := by
  exact ⟨⟨by decide, by decide⟩, by decide, by decide, by decide⟩

/-! ### Closing-marker split lemmas -/

/-- The non-head element of a nonempty-tailed list is its last element. -/
theorem getLast!_cons_of_ne_nil (x : List Char) (ys : List (List Char))
    (h : ys ≠ []) : (x :: ys).getLast! = ys.getLast! := by
  cases ys with
  | nil => exact absurd rfl h
  | cons a as => rfl

/-- A decomposition witnesses a pattern match right after its prefix. -/
theorem startsWith_at_decomp (sep a b : List Char) :
    startsWith sep ((a ++ sep ++ b).drop a.length) = true := by
  rw [List.append_assoc, List.drop_left]
  exact (startsWith_iff sep _).mpr ⟨b, rfl⟩

/-- Without an occurrence, the fueled split returns the whole string. -/
theorem splitFuel_no_occ {sep x : List Char} (h : containsSub sep x = false) :
    ∀ n, splitFuel sep n x = [x] := by
  intro n
  cases n with
  | zero => rfl
  | succ k =>
    unfold splitFuel
    rw [idxOfSub_eq_none h]

/-- Occurrences of `"</think>"` cannot overlap: the marker has no
nontrivial border. -/
theorem closeThink_no_overlap {l : List Char} {i j : Nat}
    (hi : startsWith closeThink (l.drop i) = true)
    (hj : startsWith closeThink (l.drop j) = true) (hij : i < j) :
    i + 8 ≤ j := by
  by_contra hx
  push_neg at hx
  have hlen8 : closeThink.length = 8 := by decide
  rcases (startsWith_iff _ _).mp hi with ⟨r, hr⟩
  have hdj : l.drop j = closeThink.drop (j - i) ++ r := by
    have hjj : l.drop j = (l.drop i).drop (j - i) := by
      rw [List.drop_drop]
      congr 1
      omega
    rw [hjj, hr, List.drop_append_of_le_length (by omega)]
  rcases (startsWith_iff _ _).mp hj with ⟨r2, hr2⟩
  rw [hdj] at hr2
  have h1 : (closeThink.drop (j - i) ++ r).take (8 - (j - i)) = closeThink.drop (j - i) :=
    List.take_left' (by rw [List.length_drop, hlen8])
  have h2 : (closeThink ++ r2).take (8 - (j - i)) = closeThink.take (8 - (j - i)) :=
    List.take_append_of_le_length (by omega)
  rw [hr2, h2] at h1
  have hfin : ∀ k, k < 8 → 0 < k →
      closeThink.take (8 - k) ≠ closeThink.drop k := by decide
  exact hfin (j - i) (by omega) (by omega) h1

/-- Unfolding equation of the fueled split at a found occurrence. -/
theorem splitFuel_succ_some {sep l : List Char} {n i : Nat}
    (h : idxOfSub sep l = some i) :
    splitFuel sep (n + 1) l =
      l.take i :: splitFuel sep n (l.drop (i + sep.length)) := by
  conv_lhs => unfold splitFuel
  rw [h]

/-- Go `strings.Split` on `"</think>"` keeps the content after the last
closing marker as its final part: splitting `a ++ "</think>" ++ b` with no
closing marker in `b` yields at least two parts and `b` as the last. -/
theorem splitFuel_keeps_tail :
    ∀ (N : Nat) (a : List Char), a.length ≤ N → ∀ (n : Nat) (b l : List Char),
      containsSub closeThink b = false → l = a ++ closeThink ++ b →
      l.length < n →
      1 < (splitFuel closeThink n l).length ∧
      (splitFuel closeThink n l).getLast! = b := by
  have hlen8 : closeThink.length = 8 := by decide
  intro N
  induction N with
  | zero =>
    intro a ha n b l hb hl hn
    have ha0 : a = [] := List.length_eq_zero.mp (by omega)
    subst ha0
    rw [List.nil_append] at hl
    cases n with
    | zero => omega
    | succ n' =>
      have hlne : l ≠ [] := by
        rw [hl]
        simp [closeThink]
      have hsw : startsWith closeThink l = true := by
        rw [hl]
        exact (startsWith_iff _ _).mpr ⟨b, rfl⟩
      have hidx : idxOfSub closeThink l = some 0 := by
        rcases hlc : l with _ | ⟨c, cs⟩
        · exact absurd hlc hlne
        · unfold idxOfSub
          rw [if_pos (by rw [← hlc]; exact hsw)]
      have hdrop : l.drop (0 + closeThink.length) = b := by
        rw [hl, Nat.zero_add]
        exact List.drop_left closeThink b
      rw [splitFuel_succ_some hidx, hdrop, splitFuel_no_occ hb]
      exact ⟨by simp, by rfl⟩
  | succ N ih =>
    intro a ha n b l hb hl hn
    have hcl : containsSub closeThink l = true := by
      rw [hl]
      exact containsSub_of_decomp _ a b
    obtain ⟨i, hi⟩ := Option.isSome_iff_exists.mp hcl
    have hocc_a : startsWith closeThink (l.drop a.length) = true := by
      rw [hl]
      exact startsWith_at_decomp _ a b
    have hile : i ≤ a.length := idxOfSub_min _ l i a.length hi hocc_a
    cases n with
    | zero => omega
    | succ n' =>
      rw [splitFuel_succ_some hi]
      by_cases hia : i = a.length
      · have hdrop : l.drop (i + closeThink.length) = b := by
          rw [hia, hl, show a.length + closeThink.length = (a ++ closeThink).length by
            rw [List.length_append]]
          exact List.drop_left (a ++ closeThink) b
        rw [hdrop, splitFuel_no_occ hb]
        exact ⟨by simp, by rfl⟩
      · have hilt : i < a.length := by omega
        have hsw_i : startsWith closeThink (l.drop i) = true :=
          idxOfSub_startsWith _ l i hi
        have h8 : i + 8 ≤ a.length := closeThink_no_overlap hsw_i hocc_a hilt
        have hdrop : l.drop (i + closeThink.length) =
            a.drop (i + 8) ++ closeThink ++ b := by
          rw [hl, List.append_assoc,
            List.drop_append_of_le_length (by omega), ← List.append_assoc, hlen8]
        have hll : l.length = a.length + closeThink.length + b.length := by
          rw [hl]
          simp
          omega
        have hrec := ih (a.drop (i + 8)) (by rw [List.length_drop]; omega) n' b
          (l.drop (i + closeThink.length)) hb hdrop (by
            rw [List.length_drop]
            omega)
        refine ⟨?_, ?_⟩
        · rw [List.length_cons]
          omega
        · have hne : splitFuel closeThink n' (l.drop (i + closeThink.length)) ≠ [] := by
            intro h0
            rw [h0] at hrec
            simp at hrec
          rw [getLast!_cons_of_ne_nil _ _ hne, hrec.2]

/-! ### Claim C6 -/

/-- C6 counterexample: in `"</th<think>ink>abc"` the only marker present
is `"<think>"` and there is no closing marker, yet cleaning returns just
`"abc"` — removing `"<think>"` forms a new `"</think>"` which is then also
stripped, discarding the surrounding content `"</th"` and `"ink>"` (the
character `/` of the input survives nowhere). -/
theorem C6_counterexample :
    containsSub closeThink ("</th<think>ink>abc").data = false ∧
    '/' ∈ ("</th<think>ink>abc").data ∧
    CleanCommitMessage ("</th<think>ink>abc").data (CommitConfig.mk 72) =
      ("abc").data ∧
    '/' ∉ ("abc").data := by
  exact ⟨by decide, by decide, by decide, by decide⟩

/-- C6 (amended): when the trimmed input decomposes around its last
closing marker, cleaning keeps only the trailing content (processing it as
a fresh message); when no closing marker is present, the remaining
processing is exactly the two marker-string strips (first `"<think>"`,
then `"</think>"` — which may cascade when a removal forms a new marker)
followed by trimming and the subject split; and the scenario input
normalizes to the expected message. -/
theorem C6_marker_removal :
    (∀ (m a b : List Char) (cfg : CommitConfig),
      trimSpace m = a ++ closeThink ++ b →
      containsSub closeThink b = false →
      CleanCommitMessage m cfg = CleanCommitMessage b cfg) ∧
    (∀ (m : List Char) (cfg : CommitConfig),
      containsSub closeThink m = false →
      CleanCommitMessage m cfg =
        fixSubject (trimSpace (replaceAllEmpty closeThink
          (replaceAllEmpty openThink (trimSpace m)))) cfg) ∧
    CleanCommitMessage ("<think>reasoning</think>feat(auth): add token check").data
        (CommitConfig.mk 72) =
      ("feat(auth): add token check").data := by
  refine ⟨?_, ?_, by decide⟩
  · intro m a b cfg htr hb
    have hra : containsSub closeThink (trimSpace m) = true := by
      rw [htr]
      exact containsSub_of_decomp _ a b
    have hrb : containsSub closeThink (trimSpace b) = false := by
      by_contra hx
      rw [← ne_eq, Bool.ne_false_iff] at hx
      rw [containsSub_trimSpace hx] at hb
      cases hb
    obtain ⟨hlen1, hlast⟩ := splitFuel_keeps_tail a.length a (le_refl _)
      ((trimSpace m).length + 1) b (trimSpace m) hb htr (by omega)
    have hlen1' : 1 < (splitOnSub closeThink (trimSpace m)).length := hlen1
    have hlast' : (splitOnSub closeThink (trimSpace m)).getLast! = b := hlast
    suffices hmp : markerPhase m = markerPhase b by
      unfold CleanCommitMessage
      rw [hmp]
    unfold markerPhase
    simp only [hra, hrb, eq_self_iff_true, if_true, Bool.false_eq_true, if_false]
    rw [if_pos hlen1', hlast']
  · intro m cfg hm
    have hrt : containsSub closeThink (trimSpace m) = false := by
      by_contra hx
      rw [← ne_eq, Bool.ne_false_iff] at hx
      rw [containsSub_trimSpace hx] at hm
      cases hm
    unfold CleanCommitMessage markerPhase
    simp only [hrt, Bool.false_eq_true, if_false]
    rw [show removeThinkFuel ((trimSpace m).length + 1) (trimSpace m) = trimSpace m by
      unfold removeThinkFuel
      rw [hrt]
      simp]

/-- C6 witness: the closing-marker rule evaluated at a concrete
decomposed message. -/
theorem C6_witness :
    trimSpace ("xx</think>yy").data = ("xx").data ++ closeThink ++ ("yy").data ∧
    containsSub closeThink ("yy").data = false ∧
    CleanCommitMessage ("xx</think>yy").data (CommitConfig.mk 72) =
      CleanCommitMessage ("yy").data (CommitConfig.mk 72) :=
  ⟨by decide, by decide,
   C6_marker_removal.1 ("xx</think>yy").data ("xx").data ("yy").data
     (CommitConfig.mk 72) (by decide) (by decide)⟩

end GitAc

